import Mathlib

/-!
Verification development for the s3synchrony repository (files
`src/s3synchrony.py`, `src/DataPlatforms/baseconn.py`,
`src/DataPlatforms/s3conn.py`).

The Python code is shallowly embedded as executable Lean definitions:

* A pandas dataframe holding the synchronization columns
  `{File, Edited By, Time Edited, Checksum}` is a `Table := List FileRec`.
  Row order is the dataframe row order.  `.loc[df[col] == x].iloc[0]`
  lookups become `List.find?` (first matching row).
* Timestamps (`"%Y-%m-%d %H:%M:%S"` strings parsed with `strptime`) are
  modelled as `Nat` values compared with `>`, exactly as the parsed
  `datetime` objects are compared in `_compute_dfs`.
* Checksums are `Nat`.  File contents are identified with their digest
  (the code never inspects bytes except to hash them, and transport is
  the out-of-scope TransferGateway), so uploading a file stores its
  local checksum remotely and downloading a file gives the local copy
  the checksum recorded for it in `versions.csv`.
* Console prompts are inputs: each phase receives the string the user
  typed.  `input()` results are threaded through a `Resp` record.
* Transfer failures are modelled by boolean oracles (one per operation),
  mirroring the `try/except` blocks of `_upload_to_s3`,
  `_download_from_s3`, `_delete_from_s3` and `_delete_from_local`.
* A Python exception that is *not* caught (e.g. `ValueError` from
  `int()` in `_apply_selected_indices`) aborts `synchronize`; phases
  therefore return `Except Unit _`.
-/

namespace S3Sync

/-- One row of a synchronization table: columns
`File`, `Edited By`, `Time Edited`, `Checksum` (class attribute
`columns` of `S3Connection`). -/
structure FileRec where
  file : String
  editor : String
  time : Nat
  checksum : Nat
deriving DecidableEq, Repr

/-- A dataframe with the synchronization columns, as an ordered list of rows. -/
abbrev Table := List FileRec

/-- The `File` column of a table, in row order. -/
def keys (t : Table) : List String := t.map (·.file)

/-- `df[File].isin(other[File])`-style membership test for a single path. -/
def memKey (f : String) (t : Table) : Bool := t.any (fun r => r.file == f)

/-- `df.loc[df[File] == f].iloc[0]` — the first row carrying path `f`. -/
def rowF (t : Table) (f : String) : Option FileRec :=
  t.find? (fun r => r.file == f)

/-- Checksum of the first row for `f` (`iloc[0]` lookup); `0` if absent
(the code only performs this lookup when the row exists). -/
def csF (t : Table) (f : String) : Nat :=
  match rowF t f with
  | some r => r.checksum
  | none => 0

/-- Timestamp of the first row for `f` (`iloc[0]` lookup); `0` if absent. -/
def timeF (t : Table) (f : String) : Nat :=
  match rowF t f with
  | some r => r.time
  | none => 0

/-- `_filter_ignore` applied to one table: drop the rows whose path is in
the user's ignore list (`~df[File].isin(self._ignore)`). -/
def filterIgnore (ignore : List String) (t : Table) : Table :=
  t.filter (fun r => !(ignore.contains r.file))

/-- `_compute_directory(self.datafolder)`: the walk of the local data
folder.  The local tree is already carried as a `Table` whose rows hold
each file's current mtime and content digest; the scan stamps the current
user name into the `Edited By` column of every row, exactly as
`_compute_directory` does (`new_df[editor] = self._name`). -/
def scanDir (name : String) (tree : Table) : Table :=
  tree.map (fun r => { r with editor := name })

/-- `df.drop_duplicates([File], keep="last")`: keep, for every path, only
its last occurrence (at that occurrence's position). -/
def dropDupKeepLast : Table → Table
  | [] => []
  | r :: rest =>
      if memKey r.file rest then dropDupKeepLast rest
      else r :: dropDupKeepLast rest

/-- Effect on the local tree of writing downloaded content for path `f`
with content digest `cs`: overwrite the existing file (fresh mtime
`tNow`) or create it. -/
def localWrite (name : String) (tNow : Nat) (tree : Table) (f : String) (cs : Nat) : Table :=
  if memKey f tree then
    tree.map (fun r => if r.file = f then { r with time := tNow, checksum := cs } else r)
  else
    tree ++ [⟨f, name, tNow, cs⟩]

/-! ### Python string primitives

`String.toLower`, `splitOn`, `trim` and `toInt?` from core do not reduce
in the kernel, so the fragments of Python string handling the code needs
(`str.lower`, `str.split(',')`, `int()`) are re-implemented over
`String.data`.  ASCII suffices for the prompt vocabulary involved. -/

/-- ASCII lower-casing of one character (model of `str.lower`). -/
def lowerChar (c : Char) : Char :=
  if 'A' ≤ c ∧ c ≤ 'Z' then Char.ofNat (c.toNat + 32) else c

/-- `str.lower()` (ASCII model). -/
def pyLower (s : String) : String := ⟨s.data.map lowerChar⟩

/-- Helper for `splitCommas`: accumulates the current piece reversed. -/
def splitCommasAux : List Char → List Char → List (List Char)
  | [], acc => [acc.reverse]
  | c :: rest, acc =>
      if c = ',' then acc.reverse :: splitCommasAux rest []
      else splitCommasAux rest (c :: acc)

/-- `s.split(',')` from `_apply_selected_indices`. -/
def splitCommas (s : String) : List String :=
  (splitCommasAux s.data []).map String.mk

/-- ASCII whitespace (model of what `int()` strips). -/
def isSpaceChar (c : Char) : Bool :=
  c = ' ' || c = '\t' || c = '\n' || c = '\r'

/-- Digit test. -/
def isDigitChar (c : Char) : Bool := '0' ≤ c && c ≤ '9'

/-- Value of a digit list, most significant first (`none` on empty or
non-digit input). -/
def digitsToNat : List Char → Option Nat
  | [] => none
  | cs => if cs.all isDigitChar then
            some (cs.foldl (fun n c => 10 * n + (c.toNat - 48)) 0)
          else none

/-- Python `int(s)`: strip surrounding whitespace, allow one sign, then
decimal digits; raises `ValueError` (here: `none`) otherwise. -/
def pyInt (s : String) : Option Int :=
  let cs := (s.data.dropWhile isSpaceChar).reverse.dropWhile isSpaceChar |>.reverse
  match cs with
  | [] => none
  | c :: rest =>
      if c = '-' then (digitsToNat rest).map (fun n => -(n : Int))
      else if c = '+' then (digitsToNat rest).map (fun n => (n : Int))
      else (digitsToNat (c :: rest)).map (fun n => (n : Int))

/-- Digit printing with explicit fuel (structural recursion, so that the
kernel can evaluate it). -/
def natDigitsGo : Nat → Nat → List Char
  | 0, _ => []
  | fuel + 1, n =>
      if n < 10 then [Char.ofNat (n + 48)]
      else natDigitsGo fuel (n / 10) ++ [Char.ofNat (n % 10 + 48)]

/-- Canonical decimal digits of `n`, most significant first. -/
def natDigits (n : Nat) : List Char := natDigitsGo (n + 1) n

/-- Canonical decimal numeral of `n` (the form a user types for index `n`). -/
def natStr (n : Nat) : String := ⟨natDigits n⟩

/-- Helper for `pySet`: drop every entry already seen, keeping first
occurrences. -/
def pySetAux (seen : List String) : List String → List String
  | [] => []
  | x :: rest =>
      if seen.contains x then pySetAux seen rest
      else x :: pySetAux (x :: seen) rest

/-- `set(indicies.split(','))` from `_apply_selected_indices`: the split
entries as a set.  Python set iteration order is unspecified; first
occurrences are kept here. -/
def pySet (items : List String) : List String := pySetAux [] items

/-! ### `_apply_selected_indices` -/

/-- Outcome of the index prompt: either `data_function` was never invoked
(empty response) or it was invoked on the selected file list. -/
inductive SelCall where
  | skipped
  | invoke (files : List String)
deriving DecidableEq, Repr

/-- The index-collecting loop of `_apply_selected_indices`: for every
entry of the (de-duplicated) split response, `int(num)` it — a
`ValueError` (`none`) aborts the call — and keep `allfiles[num]` when
`0 ≤ num < len(allfiles)`; out-of-range values are silently dropped. -/
def selectByIndices (items : List String) (allfiles : List String) : Option (List String) :=
  match items with
  | [] => some []
  | it :: rest =>
      match pyInt it with
      | none => none
      | some i =>
          match selectByIndices rest allfiles with
          | none => none
          | some sel =>
              if 0 ≤ i ∧ i < (allfiles.length : Int) then
                some (allfiles.getD i.toNat "" :: sel)
              else some sel

/-- `_apply_selected_indices(data_function, allfiles)` up to the point of
invoking `data_function`: `"a"`/`"all"` pass the whole candidate list,
an empty response returns `[]` without invoking anything, and otherwise
the comma-split response is read as a set of indices
(`set(indicies.split(','))`; Python set iteration order is unspecified,
we keep first occurrences).  A `ValueError` from `int()` escapes
`synchronize`, hence the `Except`. -/
def applySelectedIndices (resp : String) (allfiles : List String) : Except Unit SelCall :=
  if pyLower resp = "a" ∨ pyLower resp = "all" then .ok (.invoke allfiles)
  else if resp ≠ "" then
    match selectByIndices (pySet (splitCommas resp)) allfiles with
    | none => .error ()
    | some sel => .ok (.invoke sel)
  else .ok .skipped

/-! ### Transfer operations and their error logs -/

/-- One entry of `self._log` (append-only error log): which operation
failed on which file, and — for the three-step soft delete — which
sub-steps had completed (`Downloaded:`, `Deleted:`, `Reuploaded:`). -/
inductive LogEvent where
  | uploadError (file : String)
  | downloadError (file : String)
  | deleteS3Error (file : String) (downloaded deleted reuploaded : Bool)
  | deleteLocalError (file : String)
deriving DecidableEq, Repr

/-- `_upload_to_s3(files)`: upload each file, collect the successful ones
in order, log failures and continue.  `ok` is the per-file transfer
oracle.  (The uploaded object's remote content is its local checksum;
the ledger row is written separately by the calling phase.) -/
def uploadToS3 (ok : String → Bool) : List String → List String × List LogEvent
  | [] => ([], [])
  | f :: rest =>
      let (succ, lg) := uploadToS3 ok rest
      if ok f then (f :: succ, lg) else (succ, .uploadError f :: lg)

/-- `_download_from_s3(files)` acting on the local tree: each successful
download replaces (or creates) the local file with the remote content —
the checksum recorded for it in the remote manifest `other` — at mtime
`tNow`; failures are logged and skipped. -/
def downloadFromS3 (name : String) (tNow : Nat) (ok : String → Bool) (other : Table) :
    List String → Table → Table × List LogEvent
  | [], tree => (tree, [])
  | f :: rest, tree =>
      if ok f then
        downloadFromS3 name tNow ok other rest (localWrite name tNow tree f (csF other f))
      else
        let (tree2, lg) := downloadFromS3 name tNow ok other rest tree
        (tree2, .downloadError f :: lg)

/-- Per-file result of the three sub-steps of a soft delete:
download-to-staging, remote delete, re-upload to the archive
sub-location, in that order. -/
def softDeleteSteps (st : String → Bool × Bool × Bool) (f : String) : Bool × Bool × Bool :=
  st f

/-- The per-file loop of `_delete_from_s3` (after its `Y/N` prompt was
answered yes): soft delete each file; a file joins `successful` exactly
when all three sub-steps succeed, otherwise an error-log entry records
which sub-steps had completed before the failure. -/
def deleteFromS3Go (st : String → Bool × Bool × Bool) :
    List String → List String × List LogEvent
  | [] => ([], [])
  | f :: rest =>
      let (d, dl, ru) := softDeleteSteps st f
      let (succ, lg) := deleteFromS3Go st rest
      if d && (dl && ru) then (f :: succ, lg)
      else (succ, .deleteS3Error f d (d && dl) (d && (dl && ru)) :: lg)

/-- `_delete_from_s3(files)`: after its own `Y/N` confirmation prompt
(answers other than `y`/`yes` delete nothing and return `[]`), soft
delete each file via `deleteFromS3Go`. -/
def deleteFromS3 (yn : String) (st : String → Bool × Bool × Bool)
    (files : List String) : List String × List LogEvent :=
  if pyLower yn = "y" ∨ pyLower yn = "yes" then deleteFromS3Go st files
  else ([], [])

/-- The per-file loop of `_delete_from_local` (after yes): `os.remove`
each file from the tree; failures are logged and skipped. -/
def deleteFromLocalGo (ok : String → Bool) :
    List String → Table → Table × List LogEvent
  | [], tree => (tree, [])
  | f :: rest, tree =>
      if ok f then deleteFromLocalGo ok rest (tree.filter (fun r => !(r.file == f)))
      else
        let (tree2, lg) := deleteFromLocalGo ok rest tree
        (tree2, .deleteLocalError f :: lg)

/-- `_delete_from_local(files)` acting on the local tree: after its `Y/N`
confirmation, delete each file.  The function returns `None` in Python —
no success list. -/
def deleteFromLocal (yn : String) (ok : String → Bool)
    (files : List String) (tree : Table) : Table × List LogEvent :=
  if pyLower yn = "y" ∨ pyLower yn = "yes" then deleteFromLocalGo ok files tree
  else (tree, [])

/-! ### `_compute_dfs` — the reconciliation classification -/

/-- One entry of `mod_mine` / `mod_other`: `[file, datemine, dateother]`. -/
structure ModEntry where
  file : String
  tMine : Nat
  tOther : Nat
deriving DecidableEq, Repr

/-- The classification loop of `_compute_dfs`: for every path of
`inboth`, compare first-row checksums of `inboth` and `other`; on a
difference, the path goes to `mod_mine` when the local timestamp is
strictly greater than the remote one, otherwise to `mod_other`. -/
def modSplit (files : List String) (inboth mine other : Table) :
    List ModEntry × List ModEntry :=
  match files with
  | [] => ([], [])
  | f :: rest =>
      let (mm, mo) := modSplit rest inboth mine other
      if csF inboth f ≠ csF other f then
        let dm := timeF mine f
        let dOther := timeF other f
        if dm > dOther then (⟨f, dm, dOther⟩ :: mm, mo)
        else (mm, ⟨f, dm, dOther⟩ :: mo)
      else (mm, mo)

/-! ### Session state and configuration -/

/-- The persisted state a session reads and writes: the local data-folder
tree and the four ledger tables (`versions.csv` = remote manifest,
`versionsLocal.csv` = previous local snapshot, `deletedS3.csv` = remote
tombstones, `deletedLocal.csv` = local tombstones). -/
structure SyncState where
  localTree : Table
  versionsS3 : Table
  versionsLocal : Table
  deletedS3 : Table
  deletedLocal : Table
deriving DecidableEq, Repr

/-- The strings the user types at each prompt of one session, in the
order the prompts can appear.  `*Sel` fields answer the indexed
selection prompt of `_apply_selected_indices`; `*YN` fields answer the
`Y/N` confirmation inside `_delete_from_s3` / `_delete_from_local`. -/
structure Resp where
  pushDelSel : String
  pushDelYN : String
  pullDelSel : String
  pullDelYN : String
  pushNewSel : String
  pullNewSel : String
  pushModSel : String
  pullModSel : String
  revS3Sel : String
  revLocalSel : String
deriving Repr

/-- Per-file success oracles for the remote transfers (the
`try/except`-caught operations).  `delS3Steps` gives the three
soft-delete sub-step results (download-to-staging, remote delete,
archive re-upload) in order. -/
structure Oracles where
  uploadOk : String → Bool
  downloadOk : String → Bool
  delS3Steps : String → Bool × Bool × Bool
  delLocalOk : String → Bool

/-- Session configuration: ignore list (`ignores3.txt`), user name
(`user_name.txt`), the mtime written by downloads, prompt answers and
transfer oracles. -/
structure Cfg where
  ignore : List String
  name : String
  tNow : Nat
  resp : Resp
  oracles : Oracles

/-- `_compute_dfs(self.datafolder)`: rescan the data folder, read
`versions.csv`, apply `_filter_ignore` to both, and classify the
modified files.  Returns `(mine, other, mod_mine, mod_other)`. -/
def computeDfs (cfg : Cfg) (st : SyncState) :
    Table × Table × List ModEntry × List ModEntry :=
  let mine := filterIgnore cfg.ignore (scanDir cfg.name st.localTree)
  let other := filterIgnore cfg.ignore st.versionsS3
  let inboth := mine.filter (fun r => memKey r.file other)
  let (mm, mo) := modSplit (keys inboth) inboth mine other
  (mine, other, mm, mo)

/-- The eight prompt blocks `synchronize` runs, in source order
(`_push_deleted_s3` … `_revert_modified_local`). -/
inductive PhaseTag where
  | pushDeletedS3
  | pullDeletedLocal
  | pushNewS3
  | pullNewLocal
  | pushModifiedS3
  | pullModifiedLocal
  | revertModifiedS3
  | revertModifiedLocal
deriving DecidableEq, Repr

/-- Execution record of one phase: its tag and the candidate list it
computed (empty when the phase found nothing to offer). -/
structure PhaseEvent where
  tag : PhaseTag
  candidates : List String
deriving DecidableEq, Repr

/-- One `to_csv` call on a ledger table: which file, and the column list
written (`index=False` writes exactly the four data columns; omitting it
prepends the unnamed index column). -/
structure WriteEvent where
  table : String
  cols : List String
deriving DecidableEq, Repr

/-- The four synchronization columns. -/
def sColumns : List String := ["File", "Edited By", "Time Edited", "Checksum"]

/-- Columns of a `to_csv(…, index=False)` write. -/
def csvColsNoIndex : List String := sColumns

/-- Columns of a `to_csv(…)` write without `index=False`: pandas
prepends the unnamed index column. -/
def csvColsIndex : List String := "" :: sColumns

/-- A session in progress: persisted state plus the trace of executed
phases, ledger writes performed, and the error log `self._log`. -/
structure Sess where
  st : SyncState
  trace : List PhaseEvent
  writes : List WriteEvent
  log : List LogEvent

/-! ### The eight phases of `synchronize` -/

/-- The tombstone table `_push_deleted_s3` recomputes and persists before
its prompt: `(versionsLocal ∪ deletedLocal)` with the later table winning
per path (`concat` + `drop_duplicates(keep="last")`), restricted to paths
absent from the current (filtered) scan, then replaced by the matching
rows of the (filtered) remote manifest. -/
def recomputedTombstones (mine other oldmine deletedlocal : Table) : Table :=
  let dl0 := dropDupKeepLast (oldmine ++ deletedlocal)
  let dl1 := dl0.filter (fun r => !(memKey r.file mine))
  other.filter (fun r => memKey r.file dl1)

/-- The rewrite of the in-memory remote manifest at the end of
`_push_deleted_s3`: paths of `selecteddelete` are masked to `NaN` and
dropped. -/
def removeSucceeded (other : Table) (succ : List String) : Table :=
  other.filter (fun r => !(succ.contains r.file))

/-- `_push_deleted_s3`: recompute and persist the local tombstones, then
offer the soft delete of those files; the remote tombstone table gains
the successfully deleted rows (written *without* `index=False`) and the
remote manifest loses them. -/
def pushDeletedS3Phase (cfg : Cfg) (s : Sess) : Except Unit Sess :=
  let (mine, other, _, _) := computeDfs cfg s.st
  let dl := recomputedTombstones mine other s.st.versionsLocal s.st.deletedLocal
  let st1 := { s.st with deletedLocal := dl }
  let w1 := s.writes ++ [⟨"deletedLocal.csv", csvColsNoIndex⟩]
  let toDelete := keys dl
  if dl.isEmpty then
    .ok { st := st1, trace := s.trace ++ [⟨.pushDeletedS3, toDelete⟩], writes := w1,
          log := s.log }
  else
    match applySelectedIndices cfg.resp.pushDelSel toDelete with
    | .error _ => .error ()
    | .ok sel =>
        let (succ, dlog) :=
          match sel with
          | .skipped => ([], [])
          | .invoke fs => deleteFromS3 cfg.resp.pushDelYN cfg.oracles.delS3Steps fs
        let newdeleted := other.filter (fun r => succ.contains r.file)
        let trNew := s.st.deletedS3 ++ newdeleted
        let otherNew := removeSucceeded other succ
        .ok { st := { st1 with deletedS3 := trNew, versionsS3 := otherNew },
              trace := s.trace ++ [⟨.pushDeletedS3, toDelete⟩],
              writes := w1 ++ [⟨"deletedS3.csv", csvColsIndex⟩,
                               ⟨"versions.csv", csvColsNoIndex⟩],
              log := s.log ++ dlog }

/-- The candidate rows of `_pull_deleted_local`: rows of the remote
tombstone table whose path is present in the (filtered) local scan and
absent from the (filtered) remote manifest. -/
def pullDeletedCandidates (mine other deleteds3 : Table) : Table :=
  (deleteds3.filter (fun r => memKey r.file mine)).filter
    (fun r => !(memKey r.file other))

/-- `_pull_deleted_local`: offer to delete, from the local tree, the
files the remote side has archived. -/
def pullDeletedLocalPhase (cfg : Cfg) (s : Sess) : Except Unit Sess :=
  let (mine, other, _, _) := computeDfs cfg s.st
  let ds := pullDeletedCandidates mine other s.st.deletedS3
  let toDelete := keys ds
  if ds.isEmpty then
    .ok { s with trace := s.trace ++ [⟨.pullDeletedLocal, toDelete⟩] }
  else
    match applySelectedIndices cfg.resp.pullDelSel toDelete with
    | .error _ => .error ()
    | .ok sel =>
        let (tree2, dlog) :=
          match sel with
          | .skipped => (s.st.localTree, [])
          | .invoke fs =>
              deleteFromLocal cfg.resp.pullDelYN cfg.oracles.delLocalOk fs s.st.localTree
        .ok { st := { s.st with localTree := tree2 },
              trace := s.trace ++ [⟨.pullDeletedLocal, toDelete⟩],
              writes := s.writes, log := s.log ++ dlog }

/-- `_push_new_s3`: offer to upload the files present locally but not in
the remote manifest; the manifest gains the rows of the files actually
uploaded. -/
def pushNewS3Phase (cfg : Cfg) (s : Sess) : Except Unit Sess :=
  let (mine, other, _, _) := computeDfs cfg s.st
  let newLocal := mine.filter (fun r => !(memKey r.file other))
  let toAdd := keys newLocal
  if newLocal.isEmpty then
    .ok { s with trace := s.trace ++ [⟨.pushNewS3, toAdd⟩] }
  else
    match applySelectedIndices cfg.resp.pushNewSel toAdd with
    | .error _ => .error ()
    | .ok sel =>
        let (succ, ulog) :=
          match sel with
          | .skipped => ([], [])
          | .invoke fs => uploadToS3 cfg.oracles.uploadOk fs
        let added := mine.filter (fun r => succ.contains r.file)
        .ok { st := { s.st with versionsS3 := other ++ added },
              trace := s.trace ++ [⟨.pushNewS3, toAdd⟩],
              writes := s.writes ++ [⟨"versions.csv", csvColsNoIndex⟩],
              log := s.log ++ ulog }

/-- `_pull_new_local`: offer to download the files present in the remote
manifest but not locally; the manifest itself is unchanged. -/
def pullNewLocalPhase (cfg : Cfg) (s : Sess) : Except Unit Sess :=
  let (mine, other, _, _) := computeDfs cfg s.st
  let news3 := other.filter (fun r => !(memKey r.file mine))
  let toDownload := keys news3
  if news3.isEmpty then
    .ok { s with trace := s.trace ++ [⟨.pullNewLocal, toDownload⟩] }
  else
    match applySelectedIndices cfg.resp.pullNewSel toDownload with
    | .error _ => .error ()
    | .ok sel =>
        let (tree2, dlog) :=
          match sel with
          | .skipped => (s.st.localTree, [])
          | .invoke fs =>
              downloadFromS3 cfg.name cfg.tNow cfg.oracles.downloadOk other fs s.st.localTree
        .ok { st := { s.st with localTree := tree2 },
              trace := s.trace ++ [⟨.pullNewLocal, toDownload⟩],
              writes := s.writes, log := s.log ++ dlog }

/-- `_push_sequence(listfiles, mine, other)`: prompt, upload the selected
files, and rewrite `versions.csv` as `concat([other, updated])` with
`drop_duplicates([File], keep="last")`.  (`sort_index()` only permutes
rows of the result and is not modelled; with path-unique tables every
later read is order-insensitive.) -/
def pushSequence (cfg : Cfg) (selResp : String) (tag : PhaseTag)
    (listfiles : List ModEntry) (mine other : Table) (s : Sess) : Except Unit Sess :=
  let toPush := listfiles.map (·.file)
  match applySelectedIndices selResp toPush with
  | .error _ => .error ()
  | .ok sel =>
      let (succ, ulog) :=
        match sel with
        | .skipped => ([], [])
        | .invoke fs => uploadToS3 cfg.oracles.uploadOk fs
      let updated := mine.filter (fun r => succ.contains r.file)
      let newversions := dropDupKeepLast (other ++ updated)
      .ok { st := { s.st with versionsS3 := newversions },
            trace := s.trace ++ [⟨tag, toPush⟩],
            writes := s.writes ++ [⟨"versions.csv", csvColsNoIndex⟩],
            log := s.log ++ ulog }

/-- `_pull_sequence(listfiles, other)`: prompt and download the selected
files into the local tree; no ledger write. -/
def pullSequence (cfg : Cfg) (selResp : String) (tag : PhaseTag)
    (listfiles : List ModEntry) (other : Table) (s : Sess) : Except Unit Sess :=
  let toPull := listfiles.map (·.file)
  match applySelectedIndices selResp toPull with
  | .error _ => .error ()
  | .ok sel =>
      let (tree2, dlog) :=
        match sel with
        | .skipped => (s.st.localTree, [])
        | .invoke fs =>
            downloadFromS3 cfg.name cfg.tNow cfg.oracles.downloadOk other fs s.st.localTree
      .ok { st := { s.st with localTree := tree2 },
            trace := s.trace ++ [⟨tag, toPull⟩],
            writes := s.writes, log := s.log ++ dlog }

/-- `_push_modified_s3`: propagate `mod_mine` (locally newer) to S3. -/
def pushModifiedS3Phase (cfg : Cfg) (s : Sess) : Except Unit Sess :=
  let (mine, other, mm, _) := computeDfs cfg s.st
  if mm.isEmpty then .ok { s with trace := s.trace ++ [⟨.pushModifiedS3, []⟩] }
  else pushSequence cfg cfg.resp.pushModSel .pushModifiedS3 mm mine other s

/-- `_pull_modified_local`: propagate `mod_other` (remotely newer) to the
local tree. -/
def pullModifiedLocalPhase (cfg : Cfg) (s : Sess) : Except Unit Sess :=
  let (_, other, _, mo) := computeDfs cfg s.st
  if mo.isEmpty then .ok { s with trace := s.trace ++ [⟨.pullModifiedLocal, []⟩] }
  else pullSequence cfg cfg.resp.pullModSel .pullModifiedLocal mo other s

/-- `_revert_modified_s3`: offer `mod_other` for upload anyway (explicit
revert of the newer remote content). -/
def revertModifiedS3Phase (cfg : Cfg) (s : Sess) : Except Unit Sess :=
  let (mine, other, _, mo) := computeDfs cfg s.st
  if mo.isEmpty then .ok { s with trace := s.trace ++ [⟨.revertModifiedS3, []⟩] }
  else pushSequence cfg cfg.resp.revS3Sel .revertModifiedS3 mo mine other s

/-- `_revert_modified_local`: offer `mod_mine` for download anyway
(explicit revert of the newer local content). -/
def revertModifiedLocalPhase (cfg : Cfg) (s : Sess) : Except Unit Sess :=
  let (_, other, mm, _) := computeDfs cfg s.st
  if mm.isEmpty then .ok { s with trace := s.trace ++ [⟨.revertModifiedLocal, []⟩] }
  else pullSequence cfg cfg.resp.revLocalSel .revertModifiedLocal mm other s

/-- The end of `synchronize`: upload `versions.csv` and `deletedS3.csv`
back to the store (pure transport, no table change) and save a fresh
scan of the data folder as `versionsLocal.csv`. -/
def sessionEnd (cfg : Cfg) (s : Sess) : Sess :=
  { s with st := { s.st with versionsLocal := scanDir cfg.name s.st.localTree },
           writes := s.writes ++ [⟨"versionsLocal.csv", csvColsNoIndex⟩] }

/-- `S3Connection.synchronize`: refresh `versions.csv` and
`deletedS3.csv` from the store (the identity here — a single client and
no concurrent remote changes, so the persisted state already equals the
remote copy), then run the eight prompt blocks in source order, then
write the ledgers back. -/
def runSession (cfg : Cfg) (st : SyncState) : Except Unit Sess := do
  let s1 ← pushDeletedS3Phase cfg ⟨st, [], [], []⟩
  let s2 ← pullDeletedLocalPhase cfg s1
  let s3 ← pushNewS3Phase cfg s2
  let s4 ← pullNewLocalPhase cfg s3
  let s5 ← pushModifiedS3Phase cfg s4
  let s6 ← pullModifiedLocalPhase cfg s5
  let s7 ← revertModifiedS3Phase cfg s6
  let s8 ← revertModifiedLocalPhase cfg s7
  return sessionEnd cfg s8

/-! ### `_compute_directory` over a raw filesystem (for the scan-error
behaviour).  Separately from the session model above — which assumes
every file readable — the scan is modelled here over a directory whose
files may be unreadable, to settle what an `IOError` during `_hash`
does. -/

/-- One file met by `os.walk`: its relative path, its `stat().st_mtime`,
and its bytes — `none` when opening/reading it raises `IOError`. -/
structure FsFile where
  path : String
  mtime : Nat
  content : Option Nat
deriving DecidableEq, Repr

/-- `DataPlatformConnection._hash`: digest of the file's bytes.  Contents
are already identified with a `Nat`; the digest is modelled as that
value. -/
def md5Model (data : Nat) : Nat := data

/-- Does the character list start with `.S3`? -/
def startsWithS3 : List Char → Bool
  | '.' :: 'S' :: '3' :: _ => true
  | _ => false

/-- Substring scan for `.S3`. -/
def containsS3Go : List Char → Bool
  | [] => false
  | c :: rest => startsWithS3 (c :: rest) || containsS3Go rest

/-- Does the relative path contain the `.S3` metadata marker
(`if self._s3id in file_path`)? -/
def containsS3 (p : String) : Bool := containsS3Go p.data

/-- `_compute_directory(directory)` over the walked file list: skip `.S3`
paths, then for each file record mtime, digest and editor.  `_hash`
opens the file with no surrounding `try/except`, so an unreadable file
raises `IOError` out of the whole scan (modelled as `.error ()`). -/
def computeDirectoryFS (name : String) : List FsFile → Except Unit Table
  | [] => .ok []
  | f :: rest =>
      if containsS3 f.path then computeDirectoryFS name rest
      else
        match f.content with
        | none => .error ()
        | some c =>
            match computeDirectoryFS name rest with
            | .error e => .error e
            | .ok t => .ok (⟨f.path, name, f.mtime, md5Model c⟩ :: t)

/-- Modelled from the spec: the scan behaviour the spec describes — an
unreadable file is skipped and the scan continues over the remaining
readable files ("skip-and-continue, not fatal to the whole scan").
Stated only to compare with `computeDirectoryFS`, which is what the code
does. -/
def specScanSkipping (name : String) : List FsFile → Table
  | [] => []
  | f :: rest =>
      if containsS3 f.path then specScanSkipping name rest
      else
        match f.content with
        | none => specScanSkipping name rest
        | some c => ⟨f.path, name, f.mtime, md5Model c⟩ :: specScanSkipping name rest

/-! ### Platform dispatch (`s3synchrony.py` and `baseconn.py`) -/

/-- `_supported_platforms = {"S3": s3conn.S3Connection}` — the keys. -/
def supportedPlatforms : List String := ["S3"]

/-- The method set of a data-platform connection object, as state
transformers over an abstract world `W` (local directory tree plus every
remote store).  `resetConfirm` returns the truthiness of
`reset_confirm()`'s result along with the world. -/
structure Connection (W : Type) where
  introMessage : W → W
  establishConnection : W → W
  synchronize : W → W
  resetConfirm : W → Bool × W
  resetLocal : W → W
  resetRemote : W → W
  closeMessage : W → W

/-- `baseconn.DataPlatformConnection`: every public method only prints
or immediately returns, touching neither the local tree nor any remote
store; `reset_confirm` returns `None`, which is falsy. -/
def baseConnection (W : Type) : Connection W :=
  { introMessage := id
    establishConnection := id
    synchronize := id
    resetConfirm := fun w => (false, w)
    resetLocal := id
    resetRemote := id
    closeMessage := id }

/-- The platform dispatch shared by `smart_sync` and `reset_all`:
construct the registered connection class for a supported platform,
else the default `DataPlatformConnection`. -/
def dispatchConnection (W : Type) (platform : String) (s3 : Connection W) : Connection W :=
  if supportedPlatforms.contains platform then s3 else baseConnection W

/-- `smart_sync(platform, **kwargs)`: intro message, establish
connection, synchronize, close message. -/
def smartSync (W : Type) (platform : String) (s3 : Connection W) (w : W) : W :=
  let conn := dispatchConnection W platform s3
  conn.closeMessage (conn.synchronize (conn.establishConnection (conn.introMessage w)))

/-- `reset_all(platform, **kwargs)`: intro, establish, then reset local
and remote only when `reset_confirm()` is truthy, then close. -/
def resetAll (W : Type) (platform : String) (s3 : Connection W) (w : W) : W :=
  let conn := dispatchConnection W platform s3
  let w1 := conn.establishConnection (conn.introMessage w)
  let (okc, w2) := conn.resetConfirm w1
  let w3 := if okc then conn.resetRemote (conn.resetLocal w2) else w2
  conn.closeMessage w3

/-! ## Basic lemmas about the table operations -/

/-- Path uniqueness — the data-model invariant of every manifest. -/
def NodupKeys (t : Table) : Prop := (keys t).Nodup

theorem memKey_iff {f : String} {t : Table} : memKey f t = true ↔ f ∈ keys t := by
  simp [memKey, keys, List.any_eq_true, List.mem_map, beq_iff_eq]

theorem memKey_eq_false_iff {f : String} {t : Table} : memKey f t = false ↔ f ∉ keys t := by
  rw [← Bool.not_eq_true, not_iff_not]; exact memKey_iff

theorem mem_keys_iff {f : String} {t : Table} : f ∈ keys t ↔ ∃ r ∈ t, r.file = f := by
  simp [keys, List.mem_map]

theorem keys_append (a b : Table) : keys (a ++ b) = keys a ++ keys b := by
  simp [keys]

theorem keys_filter_keydet (p : String → Bool) (t : Table) (f : String) :
    f ∈ keys (t.filter (fun r => p r.file)) ↔ f ∈ keys t ∧ p f = true := by
  simp only [keys, List.mem_map, List.mem_filter]
  constructor
  · rintro ⟨r, ⟨hr, hp⟩, rfl⟩
    exact ⟨⟨r, hr, rfl⟩, hp⟩
  · rintro ⟨⟨r, hr, rfl⟩, hp⟩
    exact ⟨r, ⟨hr, hp⟩, rfl⟩

theorem rowF_cons (r : FileRec) (t : Table) (f : String) :
    rowF (r :: t) f = if r.file = f then some r else rowF t f := by
  simp only [rowF, List.find?]
  by_cases h : r.file = f
  · simp [h]
  · rw [if_neg h]
    have : (r.file == f) = false := beq_eq_false_iff_ne.mpr h
    rw [this]

theorem rowF_eq_none_iff {t : Table} {f : String} : rowF t f = none ↔ f ∉ keys t := by
  simp only [rowF, List.find?_eq_none, beq_iff_eq, mem_keys_iff]
  constructor
  · rintro h ⟨r, hr, rfl⟩
    exact h r hr rfl
  · rintro h r hr rfl
    exact h ⟨r, hr, rfl⟩

theorem rowF_isSome_of_mem {t : Table} {f : String} (h : f ∈ keys t) :
    ∃ r, rowF t f = some r ∧ r ∈ t ∧ r.file = f := by
  obtain ⟨r, hr, hrf⟩ := mem_keys_iff.mp h
  have : (rowF t f).isSome := by
    rw [Option.isSome_iff_ne_none]
    intro hn
    exact (rowF_eq_none_iff.mp hn) h
  obtain ⟨r2, hr2⟩ := Option.isSome_iff_exists.mp this
  refine ⟨r2, hr2, List.mem_of_find?_eq_some hr2, ?_⟩
  have := List.find?_some hr2
  exact beq_iff_eq.mp this

theorem rowF_filter_keydet (p : String → Bool) (t : Table) (f : String) (hp : p f = true) :
    rowF (t.filter (fun r => p r.file)) f = rowF t f := by
  induction t with
  | nil => rfl
  | cons r rest ih =>
      by_cases h : r.file = f
      · rw [List.filter_cons, h, hp]
        simp [rowF_cons, h]
      · rw [List.filter_cons]
        by_cases hq : p r.file
        · simp only [hq, if_true]
          rw [rowF_cons, rowF_cons, if_neg h, if_neg h, ih]
        · simp only [hq, Bool.false_eq_true, if_false]
          rw [ih, rowF_cons, if_neg h]

theorem csF_filter_keydet (p : String → Bool) (t : Table) (f : String) (hp : p f = true) :
    csF (t.filter (fun r => p r.file)) f = csF t f := by
  simp [csF, rowF_filter_keydet p t f hp]

theorem timeF_filter_keydet (p : String → Bool) (t : Table) (f : String) (hp : p f = true) :
    timeF (t.filter (fun r => p r.file)) f = timeF t f := by
  simp [timeF, rowF_filter_keydet p t f hp]

theorem keys_scanDir (n : String) (t : Table) : keys (scanDir n t) = keys t := by
  simp [keys, scanDir]

theorem rowF_scanDir (n : String) (t : Table) (f : String) :
    rowF (scanDir n t) f = (rowF t f).map (fun r => { r with editor := n }) := by
  induction t with
  | nil => rfl
  | cons r rest ih =>
      simp only [scanDir, List.map_cons]
      rw [rowF_cons, rowF_cons]
      by_cases h : r.file = f
      · simp [h]
      · simp only [h, if_false]
        simpa [scanDir] using ih

theorem csF_scanDir (n : String) (t : Table) (f : String) :
    csF (scanDir n t) f = csF t f := by
  rw [csF, csF, rowF_scanDir]
  cases rowF t f <;> rfl

theorem timeF_scanDir (n : String) (t : Table) (f : String) :
    timeF (scanDir n t) f = timeF t f := by
  rw [timeF, timeF, rowF_scanDir]
  cases rowF t f <;> rfl

theorem mem_keys_dropDupKeepLast {t : Table} {f : String} :
    f ∈ keys (dropDupKeepLast t) ↔ f ∈ keys t := by
  induction t with
  | nil => simp [dropDupKeepLast]
  | cons r rest ih =>
      rw [dropDupKeepLast]
      by_cases h : memKey r.file rest
      · simp only [h, if_true]
        rw [ih]
        constructor
        · intro hf
          simp only [keys, List.map_cons, List.mem_cons]
          right
          exact hf
        · intro hf
          simp only [keys, List.map_cons, List.mem_cons] at hf
          rcases hf with hf | hf
          · rw [hf]
            exact memKey_iff.mp h
          · exact hf
      · simp only [h, Bool.false_eq_true, if_false]
        show f ∈ keys (r :: dropDupKeepLast rest) ↔ _
        simp only [keys, List.map_cons, List.mem_cons]
        rw [show (dropDupKeepLast rest).map (·.file) = keys (dropDupKeepLast rest) from rfl,
            show rest.map (·.file) = keys rest from rfl, ih]

theorem dropDupKeepLast_eq_self {t : Table} (h : NodupKeys t) : dropDupKeepLast t = t := by
  induction t with
  | nil => rfl
  | cons r rest ih =>
      rw [NodupKeys, keys, List.map_cons, List.nodup_cons] at h
      rw [dropDupKeepLast]
      have hm : memKey r.file rest = false := memKey_eq_false_iff.mpr h.1
      rw [hm]
      simp [ih h.2]

theorem rowF_append (a b : Table) (f : String) :
    rowF (a ++ b) f = if f ∈ keys a then rowF a f else rowF b f := by
  induction a with
  | nil => simp [keys]
  | cons r rest ih =>
      rw [List.cons_append, rowF_cons, rowF_cons]
      by_cases h : r.file = f
      · simp [keys, h]
      · rw [if_neg h, if_neg h, ih]
        have hk : f ∈ keys (r :: rest) ↔ f = r.file ∨ f ∈ keys rest := by
          simp [keys, List.mem_cons]
        by_cases hf : f ∈ keys rest
        · rw [if_pos hf, if_pos (hk.mpr (Or.inr hf))]
        · rw [if_neg hf, if_neg (fun hc => by
            rcases hk.mp hc with he | he
            · exact h he.symm
            · exact hf he)]

theorem modSplit_mm_mem (files : List String) (ib m o : Table) (f : String) :
    f ∈ (modSplit files ib m o).1.map (·.file) ↔
      f ∈ files ∧ csF ib f ≠ csF o f ∧ timeF m f > timeF o f := by
  induction files with
  | nil => simp [modSplit]
  | cons g rest ih =>
      rcases hsp : modSplit rest ib m o with ⟨mm, mo⟩
      rw [hsp] at ih
      dsimp only at ih
      rw [modSplit, hsp]
      dsimp only
      by_cases hcs : csF ib g ≠ csF o g
      · rw [if_pos hcs]
        by_cases ht : timeF m g > timeF o g
        · rw [if_pos ht]
          simp only [List.map_cons, List.mem_cons]
          rw [ih]
          constructor
          · rintro (rfl | ⟨h1, h2, h3⟩)
            · exact ⟨Or.inl rfl, hcs, ht⟩
            · exact ⟨Or.inr h1, h2, h3⟩
          · rintro ⟨h1, h2, h3⟩
            rcases h1 with rfl | h1
            · exact Or.inl rfl
            · exact Or.inr ⟨h1, h2, h3⟩
        · rw [if_neg ht]
          show f ∈ mm.map (·.file) ↔ _
          rw [ih]
          constructor
          · rintro ⟨h1, h2, h3⟩
            exact ⟨List.mem_cons_of_mem _ h1, h2, h3⟩
          · rintro ⟨h1, h2, h3⟩
            rcases List.mem_cons.mp h1 with he | h1
            · rw [he] at h3
              exact absurd h3 ht
            · exact ⟨h1, h2, h3⟩
      · rw [if_neg hcs]
        show f ∈ mm.map (·.file) ↔ _
        rw [ih]
        constructor
        · rintro ⟨h1, h2, h3⟩
          exact ⟨List.mem_cons_of_mem _ h1, h2, h3⟩
        · rintro ⟨h1, h2, h3⟩
          rcases List.mem_cons.mp h1 with he | h1
          · rw [he] at h2
            exact absurd h2 hcs
          · exact ⟨h1, h2, h3⟩

theorem modSplit_mo_mem (files : List String) (ib m o : Table) (f : String) :
    f ∈ (modSplit files ib m o).2.map (·.file) ↔
      f ∈ files ∧ csF ib f ≠ csF o f ∧ ¬(timeF m f > timeF o f) := by
  induction files with
  | nil => simp [modSplit]
  | cons g rest ih =>
      rcases hsp : modSplit rest ib m o with ⟨mm, mo⟩
      rw [hsp] at ih
      dsimp only at ih
      rw [modSplit, hsp]
      dsimp only
      by_cases hcs : csF ib g ≠ csF o g
      · rw [if_pos hcs]
        by_cases ht : timeF m g > timeF o g
        · rw [if_pos ht]
          show f ∈ mo.map (·.file) ↔ _
          rw [ih]
          constructor
          · rintro ⟨h1, h2, h3⟩
            exact ⟨List.mem_cons_of_mem _ h1, h2, h3⟩
          · rintro ⟨h1, h2, h3⟩
            rcases List.mem_cons.mp h1 with he | h1
            · rw [he] at h3
              exact absurd ht h3
            · exact ⟨h1, h2, h3⟩
        · rw [if_neg ht]
          simp only [List.map_cons, List.mem_cons]
          rw [ih]
          constructor
          · rintro (rfl | ⟨h1, h2, h3⟩)
            · exact ⟨Or.inl rfl, hcs, ht⟩
            · exact ⟨Or.inr h1, h2, h3⟩
          · rintro ⟨h1, h2, h3⟩
            rcases h1 with rfl | h1
            · exact Or.inl rfl
            · exact Or.inr ⟨h1, h2, h3⟩
      · rw [if_neg hcs]
        show f ∈ mo.map (·.file) ↔ _
        rw [ih]
        constructor
        · rintro ⟨h1, h2, h3⟩
          exact ⟨List.mem_cons_of_mem _ h1, h2, h3⟩
        · rintro ⟨h1, h2, h3⟩
          rcases List.mem_cons.mp h1 with he | h1
          · rw [he] at h2
            exact absurd h2 hcs
          · exact ⟨h1, h2, h3⟩

theorem computeDfs_mm_mem (cfg : Cfg) (st : SyncState) (f : String) :
    f ∈ (computeDfs cfg st).2.2.1.map (·.file) ↔
      f ∈ keys (computeDfs cfg st).1 ∧ f ∈ keys (computeDfs cfg st).2.1 ∧
      csF (computeDfs cfg st).1 f ≠ csF (computeDfs cfg st).2.1 f ∧
      timeF (computeDfs cfg st).1 f > timeF (computeDfs cfg st).2.1 f := by
  rw [computeDfs]
  rcases hsp : modSplit
      (keys ((filterIgnore cfg.ignore (scanDir cfg.name st.localTree)).filter
        (fun r => memKey r.file (filterIgnore cfg.ignore st.versionsS3))))
      ((filterIgnore cfg.ignore (scanDir cfg.name st.localTree)).filter
        (fun r => memKey r.file (filterIgnore cfg.ignore st.versionsS3)))
      (filterIgnore cfg.ignore (scanDir cfg.name st.localTree))
      (filterIgnore cfg.ignore st.versionsS3) with ⟨mm, mo⟩
  dsimp only [hsp]
  have hmm := modSplit_mm_mem
      (keys ((filterIgnore cfg.ignore (scanDir cfg.name st.localTree)).filter
        (fun r => memKey r.file (filterIgnore cfg.ignore st.versionsS3))))
      ((filterIgnore cfg.ignore (scanDir cfg.name st.localTree)).filter
        (fun r => memKey r.file (filterIgnore cfg.ignore st.versionsS3)))
      (filterIgnore cfg.ignore (scanDir cfg.name st.localTree))
      (filterIgnore cfg.ignore st.versionsS3) f
  rw [hsp] at hmm
  dsimp only at hmm
  rw [hmm]
  set mine := filterIgnore cfg.ignore (scanDir cfg.name st.localTree) with hmine
  set other := filterIgnore cfg.ignore st.versionsS3 with hother
  constructor
  · rintro ⟨hin, hcs, ht⟩
    obtain ⟨hm, hmem⟩ := (keys_filter_keydet (fun g => memKey g other) mine f).mp hin
    refine ⟨hm, memKey_iff.mp hmem, ?_, ht⟩
    rwa [csF_filter_keydet (fun g => memKey g other) mine f hmem] at hcs
  · rintro ⟨hm, ho, hcs, ht⟩
    have hmem : memKey f other = true := memKey_iff.mpr ho
    refine ⟨(keys_filter_keydet (fun g => memKey g other) mine f).mpr ⟨hm, hmem⟩, ?_, ht⟩
    rwa [csF_filter_keydet (fun g => memKey g other) mine f hmem]

theorem computeDfs_mo_mem (cfg : Cfg) (st : SyncState) (f : String) :
    f ∈ (computeDfs cfg st).2.2.2.map (·.file) ↔
      f ∈ keys (computeDfs cfg st).1 ∧ f ∈ keys (computeDfs cfg st).2.1 ∧
      csF (computeDfs cfg st).1 f ≠ csF (computeDfs cfg st).2.1 f ∧
      ¬(timeF (computeDfs cfg st).1 f > timeF (computeDfs cfg st).2.1 f) := by
  rw [computeDfs]
  rcases hsp : modSplit
      (keys ((filterIgnore cfg.ignore (scanDir cfg.name st.localTree)).filter
        (fun r => memKey r.file (filterIgnore cfg.ignore st.versionsS3))))
      ((filterIgnore cfg.ignore (scanDir cfg.name st.localTree)).filter
        (fun r => memKey r.file (filterIgnore cfg.ignore st.versionsS3)))
      (filterIgnore cfg.ignore (scanDir cfg.name st.localTree))
      (filterIgnore cfg.ignore st.versionsS3) with ⟨mm, mo⟩
  dsimp only [hsp]
  have hmo := modSplit_mo_mem
      (keys ((filterIgnore cfg.ignore (scanDir cfg.name st.localTree)).filter
        (fun r => memKey r.file (filterIgnore cfg.ignore st.versionsS3))))
      ((filterIgnore cfg.ignore (scanDir cfg.name st.localTree)).filter
        (fun r => memKey r.file (filterIgnore cfg.ignore st.versionsS3)))
      (filterIgnore cfg.ignore (scanDir cfg.name st.localTree))
      (filterIgnore cfg.ignore st.versionsS3) f
  rw [hsp] at hmo
  dsimp only at hmo
  rw [hmo]
  set mine := filterIgnore cfg.ignore (scanDir cfg.name st.localTree) with hmine
  set other := filterIgnore cfg.ignore st.versionsS3 with hother
  constructor
  · rintro ⟨hin, hcs, ht⟩
    obtain ⟨hm, hmem⟩ := (keys_filter_keydet (fun g => memKey g other) mine f).mp hin
    refine ⟨hm, memKey_iff.mp hmem, ?_, ht⟩
    rwa [csF_filter_keydet (fun g => memKey g other) mine f hmem] at hcs
  · rintro ⟨hm, ho, hcs, ht⟩
    have hmem : memKey f other = true := memKey_iff.mpr ho
    refine ⟨(keys_filter_keydet (fun g => memKey g other) mine f).mpr ⟨hm, hmem⟩, ?_, ht⟩
    rwa [csF_filter_keydet (fun g => memKey g other) mine f hmem]

theorem keys_recomputedTombstones (mine other oldmine dl : Table) (f : String) :
    f ∈ keys (recomputedTombstones mine other oldmine dl) ↔
      (f ∈ keys oldmine ∨ f ∈ keys dl) ∧ f ∉ keys mine ∧ f ∈ keys other := by
  rw [recomputedTombstones]
  rw [keys_filter_keydet
    (fun g => memKey g ((dropDupKeepLast (oldmine ++ dl)).filter
      (fun r => !(memKey r.file mine)))) other f]
  constructor
  · rintro ⟨ho, hf⟩
    have hf2 := memKey_iff.mp hf
    rw [keys_filter_keydet (fun g => !(memKey g mine)) _ f] at hf2
    obtain ⟨h0, hnm⟩ := hf2
    rw [mem_keys_dropDupKeepLast, keys_append, List.mem_append] at h0
    refine ⟨h0, ?_, ho⟩
    intro hm
    rw [Bool.not_eq_true', memKey_eq_false_iff] at hnm
    exact hnm hm
  · rintro ⟨h0, hnm, ho⟩
    refine ⟨ho, memKey_iff.mpr ?_⟩
    rw [keys_filter_keydet (fun g => !(memKey g mine)) _ f]
    refine ⟨?_, by rw [Bool.not_eq_true', memKey_eq_false_iff]; exact hnm⟩
    rw [mem_keys_dropDupKeepLast, keys_append, List.mem_append]
    exact h0

theorem pushDeletedS3Phase_deletedLocal (cfg : Cfg) (s s2 : Sess)
    (h : pushDeletedS3Phase cfg s = .ok s2) :
    s2.st.deletedLocal =
      recomputedTombstones (computeDfs cfg s.st).1 (computeDfs cfg s.st).2.1
        s.st.versionsLocal s.st.deletedLocal ∧
    ⟨"deletedLocal.csv", csvColsNoIndex⟩ ∈ s2.writes := by
  rcases hdfs : computeDfs cfg s.st with ⟨mine, other, mm, mo⟩
  rw [pushDeletedS3Phase, hdfs] at h
  dsimp only at h
  split at h
  · injection h with h2
    subst h2
    exact ⟨rfl, List.mem_append_right _ (List.mem_singleton.mpr rfl)⟩
  · split at h
    · exact absurd h (by simp)
    · injection h with h2
      subst h2
      refine ⟨rfl, List.mem_append_left _ ?_⟩
      exact List.mem_append_right _ (List.mem_singleton.mpr rfl)

/-! ### Decimal numerals: printing and Python `int()` parsing -/

theorem digitChar_spec (k : Nat) (h : k < 10) :
    isDigitChar (Char.ofNat (k + 48)) = true ∧ (Char.ofNat (k + 48)).toNat - 48 = k ∧
    Char.ofNat (k + 48) ≠ '-' ∧ Char.ofNat (k + 48) ≠ '+' ∧
    isSpaceChar (Char.ofNat (k + 48)) = false := by
  interval_cases k <;> exact ⟨by decide, by decide, by decide, by decide, by decide⟩

theorem natDigitsGo_spec (fuel : Nat) : ∀ n, n < fuel →
    natDigitsGo fuel n ≠ [] ∧
    (∀ c ∈ natDigitsGo fuel n,
      isDigitChar c = true ∧ c ≠ '-' ∧ c ≠ '+' ∧ isSpaceChar c = false) ∧
    (natDigitsGo fuel n).foldl (fun m c => 10 * m + (c.toNat - 48)) 0 = n := by
  induction fuel with
  | zero => intro n hn; omega
  | succ fuel ih =>
      intro n hn
      rw [natDigitsGo]
      by_cases h : n < 10
      · rw [if_pos h]
        obtain ⟨h1, h2, h3, h4, h5⟩ := digitChar_spec n h
        refine ⟨by simp, ?_, ?_⟩
        · intro c hc
          rw [List.mem_singleton] at hc
          subst hc
          exact ⟨h1, h3, h4, h5⟩
        · rw [List.foldl_cons, List.foldl_nil]
          omega
      · rw [if_neg h]
        have hlt : n / 10 < fuel := by
          have := Nat.div_lt_self (show 0 < n by omega) (show 1 < 10 by omega)
          omega
        obtain ⟨ih1, ih2, ih3⟩ := ih (n / 10) hlt
        obtain ⟨g1, g2, g3, g4, g5⟩ := digitChar_spec (n % 10) (Nat.mod_lt n (by omega))
        refine ⟨by simp, ?_, ?_⟩
        · intro c hc
          rw [List.mem_append, List.mem_singleton] at hc
          rcases hc with hc | rfl
          · exact ih2 c hc
          · exact ⟨g1, g3, g4, g5⟩
        · rw [List.foldl_append, ih3, List.foldl_cons, List.foldl_nil]
          omega

theorem natDigits_spec (n : Nat) :
    natDigits n ≠ [] ∧
    (∀ c ∈ natDigits n,
      isDigitChar c = true ∧ c ≠ '-' ∧ c ≠ '+' ∧ isSpaceChar c = false) ∧
    (natDigits n).foldl (fun m c => 10 * m + (c.toNat - 48)) 0 = n :=
  natDigitsGo_spec (n + 1) n (Nat.lt_succ_self n)

theorem natStr_injective : Function.Injective natStr := by
  intro a b hab
  have hd : natDigits a = natDigits b := congrArg String.data hab
  have ha := (natDigits_spec a).2.2
  have hb := (natDigits_spec b).2.2
  rw [hd] at ha
  rw [hb] at ha
  exact ha.symm

theorem digitsToNat_natDigits (n : Nat) : digitsToNat (natDigits n) = some n := by
  obtain ⟨h1, h2, h3⟩ := natDigits_spec n
  rcases hd : natDigits n with _ | ⟨c, rest⟩
  · exact absurd hd h1
  · have hall : (c :: rest).all isDigitChar = true := by
      rw [List.all_eq_true]
      intro x hx
      exact (h2 x (hd ▸ hx)).1
    show (if (c :: rest).all isDigitChar then
        some ((c :: rest).foldl (fun n c => 10 * n + (c.toNat - 48)) 0) else none) = some n
    rw [if_pos hall]
    rw [← hd, h3]

theorem dropWhile_eq_self_of_false {l : List Char}
    (h : ∀ c ∈ l, isSpaceChar c = false) : l.dropWhile isSpaceChar = l := by
  cases l with
  | nil => rfl
  | cons c rest =>
      rw [List.dropWhile_cons, h c (List.mem_cons_self c rest)]
      simp

theorem pyInt_natStr (n : Nat) : pyInt (natStr n) = some (n : Int) := by
  obtain ⟨h1, h2, h3⟩ := natDigits_spec n
  rw [pyInt, natStr]
  have hd1 : (String.mk (natDigits n)).data = natDigits n := rfl
  rw [hd1]
  rw [dropWhile_eq_self_of_false (fun c hc => (h2 c hc).2.2.2)]
  rw [dropWhile_eq_self_of_false
    (fun c hc => (h2 c (List.mem_reverse.mp hc)).2.2.2)]
  rw [List.reverse_reverse]
  rcases hd : natDigits n with _ | ⟨c, rest⟩
  · exact absurd hd h1
  · have hc := h2 c (hd ▸ List.mem_cons_self c rest)
    dsimp only
    rw [if_neg hc.2.1, if_neg hc.2.2.1]
    rw [← hd, digitsToNat_natDigits]
    rfl

/-! ### The keep-first de-duplications used by the prompt parsing -/

/-- Keep-first de-duplication of naturals (proof-side mirror of
`pySet`). -/
def natDedupAux (seen : List Nat) : List Nat → List Nat
  | [] => []
  | x :: rest =>
      if seen.contains x then natDedupAux seen rest
      else x :: natDedupAux (x :: seen) rest

/-- Keep-first de-duplication of a list of naturals. -/
def natDedup (ns : List Nat) : List Nat := natDedupAux [] ns

theorem natContains_iff {l : List Nat} {x : Nat} : l.contains x = true ↔ x ∈ l :=
  List.elem_iff

theorem strContains_iff {l : List String} {x : String} : l.contains x = true ↔ x ∈ l :=
  List.elem_iff

theorem contains_eq_false_of_not_mem {succ : List String} {f : String}
    (h : f ∉ succ) : succ.contains f = false := by
  cases hcc : succ.contains f
  · rfl
  · exact absurd (List.mem_of_elem_eq_true hcc) h


theorem contains_map_natStr (seen : List Nat) (x : Nat) :
    (seen.map natStr).contains (natStr x) = seen.contains x := by
  cases hc : seen.contains x
  · have hx : x ∉ seen := fun hm => by
      have ht := natContains_iff.mpr hm
      rw [hc] at ht
      exact Bool.false_ne_true ht
    have hxs : natStr x ∉ seen.map natStr := by
      intro hm
      obtain ⟨y, hy, hyx⟩ := List.mem_map.mp hm
      exact hx (natStr_injective hyx ▸ hy)
    cases hc2 : (seen.map natStr).contains (natStr x)
    · rfl
    · exact absurd (strContains_iff.mp hc2) hxs
  · exact strContains_iff.mpr (List.mem_map_of_mem natStr (natContains_iff.mp hc))

theorem pySetAux_map_natStr (ns : List Nat) (seen : List Nat) :
    pySetAux (seen.map natStr) (ns.map natStr) = (natDedupAux seen ns).map natStr := by
  induction ns generalizing seen with
  | nil => rfl
  | cons x rest ih =>
      rw [List.map_cons, pySetAux, natDedupAux, contains_map_natStr]
      cases hc : seen.contains x
      · rw [if_neg Bool.false_ne_true, if_neg Bool.false_ne_true]
        rw [List.map_cons]
        rw [show natStr x :: seen.map natStr = (x :: seen).map natStr from rfl]
        rw [ih (x :: seen)]
      · rw [if_pos rfl, if_pos rfl]
        exact ih seen

theorem pySet_map_natStr (ns : List Nat) :
    pySet (ns.map natStr) = (natDedup ns).map natStr := by
  rw [pySet, natDedup]
  exact pySetAux_map_natStr ns []

theorem natDedupAux_mem (ns : List Nat) (seen : List Nat) (x : Nat) :
    x ∈ natDedupAux seen ns ↔ x ∈ ns ∧ x ∉ seen := by
  induction ns generalizing seen with
  | nil => simp [natDedupAux]
  | cons y rest ih =>
      rw [natDedupAux]
      cases hc : seen.contains y
      · rw [if_neg Bool.false_ne_true]
        rw [List.mem_cons, ih (y :: seen)]
        have hyns : y ∉ seen := fun hm => by
          have ht := natContains_iff.mpr hm
          rw [hc] at ht
          exact Bool.false_ne_true ht
        constructor
        · rintro (rfl | ⟨h1, h2⟩)
          · exact ⟨List.mem_cons_self x rest, hyns⟩
          · refine ⟨List.mem_cons_of_mem _ h1, fun hm => h2 (List.mem_cons_of_mem _ hm)⟩
        · rintro ⟨h1, h2⟩
          rcases List.mem_cons.mp h1 with rfl | h1
          · exact Or.inl rfl
          · by_cases hxy : x = y
            · exact Or.inl hxy
            · exact Or.inr ⟨h1, fun hm => by
                rcases List.mem_cons.mp hm with he | hm2
                · exact hxy he
                · exact h2 hm2⟩
      · rw [if_pos rfl]
        rw [ih seen, List.mem_cons]
        have hys : y ∈ seen := natContains_iff.mp hc
        constructor
        · rintro ⟨h1, h2⟩
          exact ⟨Or.inr h1, h2⟩
        · rintro ⟨h1, h2⟩
          rcases h1 with rfl | h1
          · exact absurd hys h2
          · exact ⟨h1, h2⟩

theorem natDedup_mem (ns : List Nat) (x : Nat) : x ∈ natDedup ns ↔ x ∈ ns := by
  rw [natDedup, natDedupAux_mem]
  simp

theorem natDedupAux_nodup (ns : List Nat) (seen : List Nat) :
    (natDedupAux seen ns).Nodup := by
  induction ns generalizing seen with
  | nil => exact List.nodup_nil
  | cons y rest ih =>
      rw [natDedupAux]
      cases hc : seen.contains y
      · rw [if_neg Bool.false_ne_true]
        rw [List.nodup_cons]
        refine ⟨fun hm => ?_, ih (y :: seen)⟩
        obtain ⟨_, h2⟩ := (natDedupAux_mem rest (y :: seen) y).mp hm
        exact h2 (List.mem_cons_self y seen)
      · rw [if_pos rfl]
        exact ih seen

theorem natDedup_nodup (ns : List Nat) : (natDedup ns).Nodup := natDedupAux_nodup ns []

theorem selectByIndices_natStr (ns : List Nat) (allfiles : List String) :
    selectByIndices (ns.map natStr) allfiles =
      some ((ns.filter (fun i => i < allfiles.length)).map
        (fun i => allfiles.getD i "")) := by
  induction ns with
  | nil => rfl
  | cons n rest ih =>
      rw [List.map_cons, selectByIndices, pyInt_natStr, ih]
      dsimp only
      rw [List.filter_cons]
      by_cases h : n < allfiles.length
      · have hc : 0 ≤ (n : Int) ∧ (n : Int) < (allfiles.length : Int) :=
          ⟨Int.ofNat_nonneg n, by exact_mod_cast h⟩
        rw [if_pos hc]
        rw [if_pos (show decide (n < allfiles.length) = true by simpa using h)]
        rw [List.map_cons, Int.toNat_ofNat]
      · have hc : ¬(0 ≤ (n : Int) ∧ (n : Int) < (allfiles.length : Int)) := by
          rintro ⟨-, hlt⟩
          exact h (by exact_mod_cast hlt)
        rw [if_neg hc]
        rw [if_neg (show ¬decide (n < allfiles.length) = true by simpa using h)]

/-- C9: when the prompt response is a comma-separated list of canonical
decimal numerals, `_apply_selected_indices` invokes the transfer function
on a subset of the displayed candidates: each in-range index selects the
candidate at that zero-based position, out-of-range indices are silently
dropped, duplicate indices select a file at most once, and an empty
response selects nothing and invokes no transfer function at all. -/
theorem c9_selection_safety (resp : String) (ns : List Nat) (allfiles : List String)
    (hne : resp ≠ "") (ha : pyLower resp ≠ "a") (hall : pyLower resp ≠ "all")
    (hsplit : splitCommas resp = ns.map natStr) (hnodup : allfiles.Nodup) :
    (∃ sel, applySelectedIndices resp allfiles = .ok (.invoke sel) ∧
      (∀ fl ∈ sel, fl ∈ allfiles) ∧
      (∀ fl, fl ∈ sel ↔ ∃ i ∈ ns, i < allfiles.length ∧ allfiles.getD i "" = fl) ∧
      sel.Nodup) ∧
    applySelectedIndices "" allfiles = .ok .skipped := by
  constructor
  · refine ⟨((natDedup ns).filter (fun i => i < allfiles.length)).map
      (fun i => allfiles.getD i ""), ?_, ?_, ?_, ?_⟩
    · rw [applySelectedIndices]
      rw [if_neg (by rintro (h | h); exacts [ha h, hall h])]
      rw [if_pos hne]
      rw [hsplit, pySet_map_natStr, selectByIndices_natStr]
    · intro fl hfl
      obtain ⟨i, hi, rfl⟩ := List.mem_map.mp hfl
      obtain ⟨-, hlt⟩ := List.mem_filter.mp hi
      have hlt2 : i < allfiles.length := by simpa using hlt
      rw [List.getD_eq_getElem allfiles "" hlt2]
      exact List.getElem_mem hlt2
    · intro fl
      constructor
      · intro hfl
        obtain ⟨i, hi, rfl⟩ := List.mem_map.mp hfl
        obtain ⟨hmem, hlt⟩ := List.mem_filter.mp hi
        exact ⟨i, (natDedup_mem ns i).mp hmem, by simpa using hlt, rfl⟩
      · rintro ⟨i, hi, hlt, rfl⟩
        refine List.mem_map.mpr ⟨i, List.mem_filter.mpr
          ⟨(natDedup_mem ns i).mpr hi, by simpa using hlt⟩, rfl⟩
    · refine List.Nodup.map_on ?_ ((natDedup_nodup ns).filter _)
      intro x hx y hy hxy
      obtain ⟨-, hltx⟩ := List.mem_filter.mp hx
      obtain ⟨-, hlty⟩ := List.mem_filter.mp hy
      have hltx2 : x < allfiles.length := by simpa using hltx
      have hlty2 : y < allfiles.length := by simpa using hlty
      rw [List.getD_eq_getElem allfiles "" hltx2,
          List.getD_eq_getElem allfiles "" hlty2] at hxy
      exact (List.Nodup.getElem_inj_iff hnodup).mp hxy
  · rfl

/-- Witness for C9: the response `"1,0,7"` over three candidates selects
`y` then `x` (index 7 silently dropped), and the empty response invokes
nothing. -/
theorem c9_selection_safety_witness :
    (("1,0,7" : String) ≠ "" ∧ pyLower "1,0,7" ≠ "a" ∧ pyLower "1,0,7" ≠ "all" ∧
      splitCommas "1,0,7" = ([1, 0, 7] : List Nat).map natStr ∧
      (["x", "y", "z"] : List String).Nodup) ∧
    ((∃ sel, applySelectedIndices "1,0,7" ["x", "y", "z"] = .ok (.invoke sel) ∧
      (∀ fl ∈ sel, fl ∈ (["x", "y", "z"] : List String)) ∧
      (∀ fl, fl ∈ sel ↔ ∃ i ∈ ([1, 0, 7] : List Nat),
        i < (["x", "y", "z"] : List String).length ∧
        (["x", "y", "z"] : List String).getD i "" = fl) ∧
      sel.Nodup) ∧
    applySelectedIndices "" ["x", "y", "z"] = .ok .skipped) :=
  ⟨⟨by decide, by decide, by decide, by decide, by decide⟩,
   c9_selection_safety "1,0,7" [1, 0, 7] ["x", "y", "z"] (by decide) (by decide)
     (by decide) (by decide) (by decide)⟩

/-- A prompt record answering every prompt `"all"`. -/
def allResp : Resp := ⟨"all", "all", "all", "all", "all", "all", "all", "all", "all", "all"⟩

/-- Oracles under which every transfer operation succeeds. -/
def allOkOracles : Oracles :=
  ⟨fun _ => true, fun _ => true, fun _ => (true, true, true), fun _ => true⟩

/-! ### Further table lemmas (for the idempotence development) -/

theorem computeDfs_fst (cfg : Cfg) (st : SyncState) :
    (computeDfs cfg st).1 = filterIgnore cfg.ignore (scanDir cfg.name st.localTree) := by
  rw [computeDfs]

theorem computeDfs_snd (cfg : Cfg) (st : SyncState) :
    (computeDfs cfg st).2.1 = filterIgnore cfg.ignore st.versionsS3 := by
  rw [computeDfs]

theorem mem_keys_filterIgnore (g : List String) (t : Table) (f : String) :
    f ∈ keys (filterIgnore g t) ↔ f ∈ keys t ∧ g.contains f = false := by
  rw [filterIgnore]
  rw [keys_filter_keydet (fun x => !(g.contains x)) t f]
  constructor
  · rintro ⟨h1, h2⟩
    rw [Bool.not_eq_true'] at h2
    exact ⟨h1, h2⟩
  · rintro ⟨h1, h2⟩
    refine ⟨h1, ?_⟩
    rw [Bool.not_eq_true']
    exact h2

theorem rowF_filterIgnore (g : List String) (t : Table) (f : String)
    (h : g.contains f = false) : rowF (filterIgnore g t) f = rowF t f := by
  rw [filterIgnore]
  refine rowF_filter_keydet (fun x => !(g.contains x)) t f ?_
  rw [Bool.not_eq_true']
  exact h

theorem nodupKeys_filter (p : FileRec → Bool) (t : Table) (h : NodupKeys t) :
    NodupKeys (t.filter p) := by
  rw [NodupKeys] at *
  exact List.Nodup.sublist (List.Sublist.map _ (List.filter_sublist t)) h

theorem nodupKeys_scanDir (n : String) (t : Table) (h : NodupKeys t) :
    NodupKeys (scanDir n t) := by
  rw [NodupKeys, keys_scanDir]
  exact h

theorem mem_keys_mine (cfg : Cfg) (st : SyncState) (f : String) :
    f ∈ keys (computeDfs cfg st).1 ↔
      f ∈ keys st.localTree ∧ cfg.ignore.contains f = false := by
  rw [computeDfs_fst, mem_keys_filterIgnore, keys_scanDir]

theorem mem_keys_other (cfg : Cfg) (st : SyncState) (f : String) :
    f ∈ keys (computeDfs cfg st).2.1 ↔
      f ∈ keys st.versionsS3 ∧ cfg.ignore.contains f = false := by
  rw [computeDfs_snd, mem_keys_filterIgnore]

theorem rowF_mine (cfg : Cfg) (st : SyncState) (f : String)
    (h : cfg.ignore.contains f = false) :
    rowF (computeDfs cfg st).1 f =
      (rowF st.localTree f).map (fun r => { r with editor := cfg.name }) := by
  rw [computeDfs_fst, rowF_filterIgnore _ _ _ h, rowF_scanDir]

theorem csF_mine (cfg : Cfg) (st : SyncState) (f : String)
    (h : cfg.ignore.contains f = false) :
    csF (computeDfs cfg st).1 f = csF st.localTree f := by
  rw [csF, csF, rowF_mine cfg st f h]
  cases rowF st.localTree f <;> rfl

theorem csF_other (cfg : Cfg) (st : SyncState) (f : String)
    (h : cfg.ignore.contains f = false) :
    csF (computeDfs cfg st).2.1 f = csF st.versionsS3 f := by
  rw [computeDfs_snd, csF, csF, rowF_filterIgnore _ _ _ h]

theorem timeF_mine (cfg : Cfg) (st : SyncState) (f : String)
    (h : cfg.ignore.contains f = false) :
    timeF (computeDfs cfg st).1 f = timeF st.localTree f := by
  rw [timeF, timeF, rowF_mine cfg st f h]
  cases rowF st.localTree f <;> rfl

theorem timeF_other (cfg : Cfg) (st : SyncState) (f : String)
    (h : cfg.ignore.contains f = false) :
    timeF (computeDfs cfg st).2.1 f = timeF st.versionsS3 f := by
  rw [computeDfs_snd, timeF, timeF, rowF_filterIgnore _ _ _ h]

theorem contains_eq_false_of_mem_filterIgnore {g : List String} {t : Table}
    {r : FileRec} (h : r ∈ filterIgnore g t) : g.contains r.file = false := by
  rw [filterIgnore] at h
  have := (List.mem_filter.mp h).2
  rwa [Bool.not_eq_true'] at this

/-! ### Evaluation lemmas under the all-`"all"` prompt record -/

theorem applySel_all (fs : List String) :
    applySelectedIndices "all" fs = .ok (.invoke fs) := rfl

theorem deleteFromS3_all (st : String → Bool × Bool × Bool) (fs : List String) :
    deleteFromS3 "all" st fs = ([], []) := rfl

theorem deleteFromLocal_all (ok : String → Bool) (fs : List String) (tree : Table) :
    deleteFromLocal "all" ok fs tree = (tree, []) := rfl

theorem uploadToS3_all_ok (ok : String → Bool) (hok : ∀ f, ok f = true) :
    ∀ fs : List String, uploadToS3 ok fs = (fs, []) := by
  intro fs
  induction fs with
  | nil => rfl
  | cons f rest ih =>
      rw [uploadToS3, ih]
      dsimp only
      rw [if_pos (hok f)]

/-- The cumulative local-tree effect of downloading a list of files whose
remote rows are in `other` (every download succeeding). -/
def applyDownloads (name : String) (tNow : Nat) (other : Table) :
    List String → Table → Table
  | [], tree => tree
  | f :: rest, tree =>
      applyDownloads name tNow other rest (localWrite name tNow tree f (csF other f))

theorem downloadFromS3_all_ok (name : String) (tNow : Nat) (ok : String → Bool)
    (other : Table) (hok : ∀ f, ok f = true) :
    ∀ (fs : List String) (tree : Table),
      downloadFromS3 name tNow ok other fs tree =
        (applyDownloads name tNow other fs tree, []) := by
  intro fs
  induction fs with
  | nil => intro tree; rfl
  | cons f rest ih =>
      intro tree
      rw [downloadFromS3, if_pos (hok f), applyDownloads, ih]

/-! ### `localWrite` and `applyDownloads` lemmas -/

theorem rowF_map_preserve (u : FileRec → FileRec) (hu : ∀ r, (u r).file = r.file)
    (t : Table) (f : String) : rowF (t.map u) f = (rowF t f).map u := by
  induction t with
  | nil => rfl
  | cons r rest ih =>
      rw [List.map_cons, rowF_cons, rowF_cons, hu r]
      by_cases h : r.file = f
      · rw [if_pos h, if_pos h]
        rfl
      · rw [if_neg h, if_neg h, ih]

theorem mem_keys_localWrite (n : String) (tN : Nat) (tree : Table) (f : String)
    (cs : Nat) (f2 : String) :
    f2 ∈ keys (localWrite n tN tree f cs) ↔ f2 ∈ keys tree ∨ f2 = f := by
  rw [localWrite]
  by_cases h : memKey f tree
  · rw [if_pos h]
    have hk : keys (tree.map (fun r =>
        if r.file = f then { r with time := tN, checksum := cs } else r)) = keys tree := by
      rw [keys, keys, List.map_map]
      refine List.map_congr_left ?_
      intro r _
      by_cases hr : r.file = f
      · simp [hr]
      · simp [hr]
    rw [hk]
    constructor
    · exact Or.inl
    · rintro (h2 | rfl)
      · exact h2
      · exact memKey_iff.mp h
  · rw [if_neg h]
    rw [keys_append, List.mem_append]
    constructor
    · rintro (h2 | h2)
      · exact Or.inl h2
      · rw [keys, List.map_singleton, List.mem_singleton] at h2
        exact Or.inr h2
    · rintro (h2 | rfl)
      · exact Or.inl h2
      · right
        rw [keys, List.map_singleton, List.mem_singleton]

theorem csF_congr {t t2 : Table} {f : String} (h : rowF t f = rowF t2 f) :
    csF t f = csF t2 f := by
  rw [csF, csF, h]

theorem timeF_congr {t t2 : Table} {f : String} (h : rowF t f = rowF t2 f) :
    timeF t f = timeF t2 f := by
  rw [timeF, timeF, h]

theorem rowF_localWrite_ne (n : String) (tN : Nat) (tree : Table) (f : String)
    (cs : Nat) (f2 : String) (h : f2 ≠ f) :
    rowF (localWrite n tN tree f cs) f2 = rowF tree f2 := by
  rw [localWrite]
  by_cases hm : memKey f tree
  · rw [if_pos hm]
    rw [rowF_map_preserve (fun r => if r.file = f then { r with time := tN, checksum := cs } else r)
      (fun r => by by_cases hr : r.file = f <;> simp [hr]) tree f2]
    rcases hrow : rowF tree f2 with _ | r
    · rfl
    · have hrow2 : tree.find? (fun q => q.file == f2) = some r := hrow
      have hrf0 : (r.file == f2) = true :=
        List.find?_some (p := fun q : FileRec => q.file == f2) hrow2
      have hrf : r.file = f2 := beq_iff_eq.mp hrf0
      rw [Option.map_some']
      rw [if_neg (show ¬(r.file = f) by rw [hrf]; exact h)]
  · rw [if_neg hm]
    rw [rowF_append]
    by_cases h2 : f2 ∈ keys tree
    · rw [if_pos h2]
    · rw [if_neg h2]
      rw [rowF_eq_none_iff.mpr h2]
      rw [rowF_cons]
      dsimp only
      rw [if_neg (fun he => h he.symm)]
      rfl

theorem csF_localWrite_self (n : String) (tN : Nat) (tree : Table) (f : String)
    (cs : Nat) : csF (localWrite n tN tree f cs) f = cs := by
  rw [localWrite]
  by_cases hm : memKey f tree
  · rw [if_pos hm]
    rw [csF, rowF_map_preserve (fun r => if r.file = f then { r with time := tN, checksum := cs } else r)
      (fun r => by by_cases hr : r.file = f <;> simp [hr]) tree f]
    obtain ⟨r, hr, hrm, hrf⟩ := rowF_isSome_of_mem (memKey_iff.mp hm)
    rw [hr]
    simp [hrf]
  · rw [if_neg hm]
    rw [csF, rowF_append]
    rw [if_neg (fun hc => (memKey_eq_false_iff.mp (Bool.not_eq_true _ ▸ hm)) hc)]
    rw [rowF_cons]
    rw [if_pos rfl]

theorem nodupKeys_localWrite (n : String) (tN : Nat) (tree : Table) (f : String)
    (cs : Nat) (h : NodupKeys tree) : NodupKeys (localWrite n tN tree f cs) := by
  rw [localWrite]
  by_cases hm : memKey f tree
  · rw [if_pos hm]
    rw [NodupKeys, keys, List.map_map]
    have : (fun r : FileRec => ((if r.file = f then { r with time := tN, checksum := cs } else r)).file)
        = fun r : FileRec => r.file := by
      funext r
      by_cases hr : r.file = f <;> simp [hr]
    rw [show ((fun x => x.file) ∘ fun r : FileRec =>
        if r.file = f then { r with time := tN, checksum := cs } else r) =
        fun r : FileRec => ((if r.file = f then { r with time := tN, checksum := cs } else r)).file
        from rfl, this]
    exact h
  · rw [if_neg hm]
    rw [NodupKeys, keys_append]
    rw [List.nodup_append]
    refine ⟨h, List.nodup_singleton _, ?_⟩
    intro a ha hb
    rw [keys, List.map_singleton, List.mem_singleton] at hb
    subst hb
    exact (memKey_eq_false_iff.mp (Bool.not_eq_true _ ▸ hm)) ha

theorem mem_keys_applyDownloads (n : String) (tN : Nat) (other : Table) :
    ∀ (fs : List String) (tree : Table) (f2 : String),
      f2 ∈ keys (applyDownloads n tN other fs tree) ↔ f2 ∈ keys tree ∨ f2 ∈ fs := by
  intro fs
  induction fs with
  | nil => intro tree f2; simp [applyDownloads]
  | cons f rest ih =>
      intro tree f2
      rw [applyDownloads, ih, mem_keys_localWrite, List.mem_cons]
      tauto

theorem rowF_applyDownloads_not_mem (n : String) (tN : Nat) (other : Table) :
    ∀ (fs : List String) (tree : Table) (f2 : String), f2 ∉ fs →
      rowF (applyDownloads n tN other fs tree) f2 = rowF tree f2 := by
  intro fs
  induction fs with
  | nil => intro tree f2 _; rfl
  | cons f rest ih =>
      intro tree f2 h
      rw [applyDownloads, ih _ f2 (fun hm => h (List.mem_cons_of_mem _ hm)),
        rowF_localWrite_ne _ _ _ _ _ _
          (fun he => h (by rw [he]; exact List.mem_cons_self f rest))]

theorem csF_applyDownloads_mem (n : String) (tN : Nat) (other : Table) :
    ∀ (fs : List String) (tree : Table) (f2 : String), f2 ∈ fs →
      csF (applyDownloads n tN other fs tree) f2 = csF other f2 := by
  intro fs
  induction fs with
  | nil => intro tree f2 h; exact absurd h (List.not_mem_nil f2)
  | cons f rest ih =>
      intro tree f2 h
      by_cases hr : f2 ∈ rest
      · rw [applyDownloads, ih _ f2 hr]
      · rcases List.mem_cons.mp h with rfl | h2
        · rw [applyDownloads]
          rw [csF_congr (rowF_applyDownloads_not_mem n tN other rest _ f2 hr)]
          exact csF_localWrite_self n tN tree f2 (csF other f2)
        · exact absurd h2 hr

theorem nodupKeys_applyDownloads (n : String) (tN : Nat) (other : Table) :
    ∀ (fs : List String) (tree : Table), NodupKeys tree →
      NodupKeys (applyDownloads n tN other fs tree) := by
  intro fs
  induction fs with
  | nil => intro tree h; exact h
  | cons f rest ih =>
      intro tree h
      rw [applyDownloads]
      exact ih _ (nodupKeys_localWrite n tN tree f _ h)

theorem filterIgnore_idem (g : List String) (t : Table) :
    filterIgnore g (filterIgnore g t) = filterIgnore g t := by
  rw [filterIgnore]
  refine List.filter_eq_self.mpr ?_
  intro r hr
  rw [Bool.not_eq_true']
  exact contains_eq_false_of_mem_filterIgnore hr

theorem filter_contains_nil (t : Table) :
    t.filter (fun r => List.contains [] r.file) = [] := by
  induction t with
  | nil => rfl
  | cons r rest ih => rw [List.filter_cons, if_neg (by exact Bool.false_ne_true), ih]

theorem removeSucceeded_nil (t : Table) : removeSucceeded t [] = t := by
  rw [removeSucceeded]
  exact List.filter_eq_self.mpr (fun r _ => rfl)

/-! ### Phase behaviour under the all-`"all"` responses -/

theorem pushDeletedS3Phase_all (cfg : Cfg) (s : Sess) (hresp : cfg.resp = allResp) :
    ∃ s2, pushDeletedS3Phase cfg s = .ok s2 ∧
      s2.st.localTree = s.st.localTree ∧
      s2.st.versionsLocal = s.st.versionsLocal ∧
      s2.st.deletedS3 = s.st.deletedS3 ∧
      s2.st.deletedLocal = recomputedTombstones (computeDfs cfg s.st).1
        (computeDfs cfg s.st).2.1 s.st.versionsLocal s.st.deletedLocal ∧
      filterIgnore cfg.ignore s2.st.versionsS3 =
        filterIgnore cfg.ignore s.st.versionsS3 ∧
      (NodupKeys s.st.versionsS3 → NodupKeys s2.st.versionsS3) := by
  have hother : (computeDfs cfg s.st).2.1 = filterIgnore cfg.ignore s.st.versionsS3 :=
    computeDfs_snd cfg s.st
  rcases hdfs : computeDfs cfg s.st with ⟨mine, other, mm, mo⟩
  rw [hdfs] at hother
  dsimp only at hother
  rw [pushDeletedS3Phase, hdfs]
  dsimp only
  by_cases hemp : (recomputedTombstones mine other s.st.versionsLocal s.st.deletedLocal).isEmpty
  · rw [if_pos hemp]
    exact ⟨_, rfl, rfl, rfl, rfl, rfl, rfl, fun h => h⟩
  · rw [if_neg hemp]
    rw [show cfg.resp.pushDelSel = "all" by rw [hresp]; rfl, applySel_all]
    dsimp only
    rw [show cfg.resp.pushDelYN = "all" by rw [hresp]; rfl, deleteFromS3_all]
    dsimp only
    refine ⟨_, rfl, rfl, rfl, ?_, rfl, ?_, ?_⟩
    · dsimp only
      rw [filter_contains_nil, List.append_nil]
    · dsimp only
      rw [removeSucceeded_nil, hother, filterIgnore_idem]
    · intro h
      dsimp only
      rw [removeSucceeded_nil, hother]
      exact nodupKeys_filter _ _ h

theorem pullDeletedLocalPhase_all (cfg : Cfg) (s : Sess) (hresp : cfg.resp = allResp) :
    ∃ s2, pullDeletedLocalPhase cfg s = .ok s2 ∧ s2.st = s.st := by
  rcases hdfs : computeDfs cfg s.st with ⟨mine, other, mm, mo⟩
  rw [pullDeletedLocalPhase, hdfs]
  dsimp only
  by_cases hemp : (pullDeletedCandidates mine other s.st.deletedS3).isEmpty
  · rw [if_pos hemp]
    exact ⟨_, rfl, rfl⟩
  · rw [if_neg hemp]
    rw [show cfg.resp.pullDelSel = "all" by rw [hresp]; rfl, applySel_all]
    dsimp only
    rw [show cfg.resp.pullDelYN = "all" by rw [hresp]; rfl, deleteFromLocal_all]
    exact ⟨_, rfl, rfl⟩

theorem filterIgnore_eq_self (g : List String) (t : Table)
    (h : ∀ r ∈ t, g.contains r.file = false) : filterIgnore g t = t := by
  rw [filterIgnore]
  refine List.filter_eq_self.mpr ?_
  intro r hr
  rw [Bool.not_eq_true']
  exact h r hr

theorem pushNewS3Phase_all (cfg : Cfg) (s : Sess) (hresp : cfg.resp = allResp)
    (hup : ∀ f, cfg.oracles.uploadOk f = true) :
    ∃ s2, pushNewS3Phase cfg s = .ok s2 ∧
      s2.st.localTree = s.st.localTree ∧
      s2.st.versionsLocal = s.st.versionsLocal ∧
      s2.st.deletedS3 = s.st.deletedS3 ∧
      s2.st.deletedLocal = s.st.deletedLocal ∧
      (∀ f, f ∈ keys (filterIgnore cfg.ignore s2.st.versionsS3) ↔
        f ∈ keys (computeDfs cfg s.st).2.1 ∨ f ∈ keys (computeDfs cfg s.st).1) ∧
      (∀ f, f ∈ keys (computeDfs cfg s.st).2.1 →
        rowF (filterIgnore cfg.ignore s2.st.versionsS3) f =
          rowF (computeDfs cfg s.st).2.1 f) ∧
      (∀ f, f ∈ keys (computeDfs cfg s.st).1 → f ∉ keys (computeDfs cfg s.st).2.1 →
        rowF (filterIgnore cfg.ignore s2.st.versionsS3) f =
          rowF (computeDfs cfg s.st).1 f) ∧
      (NodupKeys s.st.localTree → NodupKeys s.st.versionsS3 →
        NodupKeys s2.st.versionsS3) := by
  have hmn : (computeDfs cfg s.st).1 =
      filterIgnore cfg.ignore (scanDir cfg.name s.st.localTree) := computeDfs_fst cfg s.st
  have hot : (computeDfs cfg s.st).2.1 =
      filterIgnore cfg.ignore s.st.versionsS3 := computeDfs_snd cfg s.st
  rcases hdfs : computeDfs cfg s.st with ⟨mine, other, mm, mo⟩
  rw [hdfs] at hmn hot
  dsimp only at hmn hot
  have hMfix : filterIgnore cfg.ignore mine = mine := by
    rw [hmn]
    exact filterIgnore_idem _ _
  have hOfix : filterIgnore cfg.ignore other = other := by
    rw [hot]
    exact filterIgnore_idem _ _
  rw [pushNewS3Phase, hdfs]
  dsimp only
  by_cases hemp : (mine.filter (fun r => !(memKey r.file other))).isEmpty
  · -- every locally present path is already in the remote manifest
    rw [if_pos hemp]
    have hsub : ∀ f, f ∈ keys mine → f ∈ keys other := by
      intro f hf
      obtain ⟨r, hr, hrf⟩ := mem_keys_iff.mp hf
      have hnil := List.isEmpty_iff.mp hemp
      have hne := List.filter_eq_nil_iff.mp hnil r hr
      have hmem : memKey r.file other = true := by
        cases hmk : memKey r.file other
        · exact absurd (by rw [hmk]; rfl) hne
        · rfl
      rw [← hrf]
      exact memKey_iff.mp hmem
    refine ⟨_, rfl, rfl, rfl, rfl, rfl, ?_, ?_, ?_, ?_⟩
    · intro f
      rw [show filterIgnore cfg.ignore s.st.versionsS3 = other from hot.symm]
      constructor
      · exact Or.inl
      · rintro (h | h)
        · exact h
        · exact hsub f h
    · intro f _
      rw [show filterIgnore cfg.ignore s.st.versionsS3 = other from hot.symm]
    · intro f hf hnf
      exact absurd (hsub f hf) hnf
    · intro _ h
      exact h
  · rw [if_neg hemp]
    rw [show cfg.resp.pushNewSel = "all" by rw [hresp]; rfl, applySel_all]
    dsimp only
    rw [uploadToS3_all_ok cfg.oracles.uploadOk hup]
    dsimp only
    set newLocal := mine.filter (fun r => !(memKey r.file other)) with hnl
    have hadded : mine.filter (fun r => (keys newLocal).contains r.file) = newLocal := by
      rw [hnl]
      refine List.filter_congr ?_
      intro r hr
      cases hm : memKey r.file other
      · have h1 : r.file ∈ keys (mine.filter (fun q => !(memKey q.file other))) := by
          refine (keys_filter_keydet (fun x => !(memKey x other)) mine r.file).mpr ?_
          exact ⟨mem_keys_iff.mpr ⟨r, hr, rfl⟩, by rw [hm]; rfl⟩
        rw [show keys newLocal = keys (mine.filter (fun q => !(memKey q.file other)))
          from congrArg keys hnl]
        rw [strContains_iff.mpr h1]
        rfl
      · have h1 : (keys newLocal).contains r.file = false := by
          refine contains_eq_false_of_not_mem ?_
          intro hc
          rw [hnl] at hc
          obtain ⟨h2, h3⟩ := (keys_filter_keydet (fun x => !(memKey x other)) mine r.file).mp hc
          rw [hm] at h3
          exact absurd h3 (by decide)
        rw [h1]
        rfl
    rw [hadded]
    have hnlfix : filterIgnore cfg.ignore newLocal = newLocal := by
      refine filterIgnore_eq_self _ _ ?_
      intro r hr
      have : r ∈ mine := (List.mem_filter.mp hr).1
      rw [hmn] at this
      exact contains_eq_false_of_mem_filterIgnore this
    have hF : filterIgnore cfg.ignore (other ++ newLocal) = other ++ newLocal := by
      rw [filterIgnore, List.filter_append, ← filterIgnore, ← filterIgnore, hOfix, hnlfix]
    refine ⟨_, rfl, rfl, rfl, rfl, rfl, ?_, ?_, ?_, ?_⟩
    · intro f
      dsimp only
      rw [hF, keys_append, List.mem_append]
      rw [keys_filter_keydet (fun x => !(memKey x other)) mine f]
      constructor
      · rintro (h | ⟨h1, _⟩)
        · exact Or.inl h
        · exact Or.inr h1
      · rintro (h | h1)
        · exact Or.inl h
        · by_cases hmem : f ∈ keys other
          · exact Or.inl hmem
          · refine Or.inr ⟨h1, ?_⟩
            rw [Bool.not_eq_true']
            exact memKey_eq_false_iff.mpr hmem
    · intro f hf
      dsimp only
      rw [hF, rowF_append, if_pos hf]
    · intro f hf hnf
      dsimp only
      rw [hF, rowF_append, if_neg hnf]
      refine rowF_filter_keydet (fun x => !(memKey x other)) mine f ?_
      rw [Bool.not_eq_true']
      exact memKey_eq_false_iff.mpr hnf
    · intro hndM hndR
      dsimp only
      show NodupKeys (other ++ newLocal)
      rw [NodupKeys, keys_append, List.nodup_append]
      have hndO : NodupKeys other := by
        rw [hot]
        exact nodupKeys_filter _ _ hndR
      have hndN : NodupKeys newLocal := by
        refine nodupKeys_filter _ _ ?_
        rw [hmn]
        exact nodupKeys_filter _ _ (nodupKeys_scanDir _ _ hndM)
      refine ⟨hndO, hndN, ?_⟩
      intro a ha hb
      obtain ⟨h1, h2⟩ := (keys_filter_keydet (fun x => !(memKey x other)) mine a).mp hb
      rw [Bool.not_eq_true'] at h2
      exact (memKey_eq_false_iff.mp h2) ha

theorem pullNewLocalPhase_all (cfg : Cfg) (s : Sess) (hresp : cfg.resp = allResp)
    (hdown : ∀ f, cfg.oracles.downloadOk f = true) :
    ∃ s2, pullNewLocalPhase cfg s = .ok s2 ∧
      s2.st.versionsS3 = s.st.versionsS3 ∧
      s2.st.versionsLocal = s.st.versionsLocal ∧
      s2.st.deletedS3 = s.st.deletedS3 ∧
      s2.st.deletedLocal = s.st.deletedLocal ∧
      (∀ f, f ∈ keys s2.st.localTree ↔
        f ∈ keys s.st.localTree ∨
          (f ∈ keys (computeDfs cfg s.st).2.1 ∧ f ∉ keys (computeDfs cfg s.st).1)) ∧
      (∀ f, f ∈ keys s.st.localTree →
        rowF s2.st.localTree f = rowF s.st.localTree f) ∧
      (∀ f, f ∈ keys (computeDfs cfg s.st).2.1 → f ∉ keys (computeDfs cfg s.st).1 →
        csF s2.st.localTree f = csF (computeDfs cfg s.st).2.1 f) ∧
      (NodupKeys s.st.localTree → NodupKeys s2.st.localTree) := by
  have hmn : (computeDfs cfg s.st).1 =
      filterIgnore cfg.ignore (scanDir cfg.name s.st.localTree) := computeDfs_fst cfg s.st
  rcases hdfs : computeDfs cfg s.st with ⟨mine, other, mm, mo⟩
  rw [hdfs] at hmn
  dsimp only at hmn
  rw [pullNewLocalPhase, hdfs]
  dsimp only
  set news3 := other.filter (fun r => !(memKey r.file mine)) with hn3
  have hnewsKeys : ∀ f, f ∈ keys news3 ↔ f ∈ keys other ∧ f ∉ keys mine := by
    intro f
    rw [keys_filter_keydet (fun x => !(memKey x mine)) other f]
    constructor
    · rintro ⟨h1, h2⟩
      rw [Bool.not_eq_true'] at h2
      exact ⟨h1, memKey_eq_false_iff.mp h2⟩
    · rintro ⟨h1, h2⟩
      refine ⟨h1, ?_⟩
      rw [Bool.not_eq_true']
      exact memKey_eq_false_iff.mpr h2
  have hnewsNotLocal : ∀ f, f ∈ keys news3 → f ∉ keys s.st.localTree := by
    intro f hf hloc
    obtain ⟨h1, h2⟩ := (hnewsKeys f).mp hf
    apply h2
    rw [hmn, mem_keys_filterIgnore, keys_scanDir]
    refine ⟨hloc, ?_⟩
    obtain ⟨r, hr, hrf⟩ := mem_keys_iff.mp h1
    rw [← hrf]
    exact contains_eq_false_of_mem_filterIgnore (by
      rw [← computeDfs_snd cfg s.st, hdfs]; exact hr)
  by_cases hemp : news3.isEmpty
  · rw [if_pos hemp]
    have hsub : ∀ f, f ∈ keys other → f ∈ keys mine := by
      intro f hf
      by_cases hm : f ∈ keys mine
      · exact hm
      · exact absurd ((hnewsKeys f).mpr ⟨hf, hm⟩)
          (by rw [List.isEmpty_iff.mp hemp]; exact List.not_mem_nil f)
    refine ⟨_, rfl, rfl, rfl, rfl, rfl, ?_, fun f _ => rfl, ?_, fun h => h⟩
    · intro f
      constructor
      · exact Or.inl
      · rintro (h | ⟨h1, h2⟩)
        · exact h
        · exact absurd (hsub f h1) h2
    · intro f hf hnf
      exact absurd (hsub f hf) hnf
  · rw [if_neg hemp]
    rw [show cfg.resp.pullNewSel = "all" by rw [hresp]; rfl, applySel_all]
    dsimp only
    rw [downloadFromS3_all_ok cfg.name cfg.tNow cfg.oracles.downloadOk other hdown]
    refine ⟨_, rfl, rfl, rfl, rfl, rfl, ?_, ?_, ?_, ?_⟩
    · intro f
      dsimp only
      rw [mem_keys_applyDownloads]
      constructor
      · rintro (h | h)
        · exact Or.inl h
        · exact Or.inr ((hnewsKeys f).mp h)
      · rintro (h | h)
        · exact Or.inl h
        · exact Or.inr ((hnewsKeys f).mpr h)
    · intro f hf
      dsimp only
      exact rowF_applyDownloads_not_mem _ _ _ _ _ f
        (fun hm => hnewsNotLocal f hm hf)
    · intro f hf hnf
      dsimp only
      exact csF_applyDownloads_mem _ _ _ _ _ f ((hnewsKeys f).mpr ⟨hf, hnf⟩)
    · intro h
      dsimp only
      exact nodupKeys_applyDownloads _ _ _ _ _ h

theorem mem_of_mem_dropDupKeepLast {t : Table} {r : FileRec}
    (h : r ∈ dropDupKeepLast t) : r ∈ t := by
  induction t with
  | nil => exact absurd h (List.not_mem_nil r)
  | cons q rest ih =>
      rw [dropDupKeepLast] at h
      by_cases hm : memKey q.file rest
      · rw [if_pos hm] at h
        exact List.mem_cons_of_mem _ (ih h)
      · rw [if_neg hm] at h
        rcases List.mem_cons.mp h with rfl | h2
        · exact List.mem_cons_self r rest
        · exact List.mem_cons_of_mem _ (ih h2)

theorem nodupKeys_dropDupKeepLast (t : Table) : NodupKeys (dropDupKeepLast t) := by
  induction t with
  | nil => exact List.nodup_nil
  | cons r rest ih =>
      rw [dropDupKeepLast]
      by_cases hm : memKey r.file rest
      · rw [if_pos hm]
        exact ih
      · rw [if_neg hm]
        show NodupKeys (r :: dropDupKeepLast rest)
        rw [NodupKeys, keys, List.map_cons, List.nodup_cons]
        refine ⟨fun hc => ?_, ih⟩
        have : r.file ∈ keys rest := mem_keys_dropDupKeepLast.mp hc
        exact (memKey_eq_false_iff.mp (Bool.not_eq_true _ ▸ hm)) this

theorem rowF_dropDupKeepLast_append (a b : Table) (ha : NodupKeys a)
    (hb : NodupKeys b) (f : String) :
    rowF (dropDupKeepLast (a ++ b)) f =
      if f ∈ keys b then rowF b f else rowF a f := by
  induction a with
  | nil =>
      rw [List.nil_append, dropDupKeepLast_eq_self hb]
      by_cases h : f ∈ keys b
      · rw [if_pos h]
      · rw [if_neg h, rowF_eq_none_iff.mpr h]
        rfl
  | cons r a2 ih =>
      rw [NodupKeys, keys, List.map_cons, List.nodup_cons] at ha
      obtain ⟨hra, ha2⟩ := ha
      rw [List.cons_append, dropDupKeepLast]
      have hmk : memKey r.file (a2 ++ b) = true ↔ r.file ∈ keys b := by
        rw [memKey_iff, keys_append, List.mem_append]
        constructor
        · rintro (h | h)
          · exact absurd h hra
          · exact h
        · exact Or.inr
      by_cases hrb : r.file ∈ keys b
      · rw [if_pos (hmk.mpr hrb), ih ha2]
        by_cases hfb : f ∈ keys b
        · rw [if_pos hfb, if_pos hfb]
        · rw [if_neg hfb, if_neg hfb, rowF_cons]
          rw [if_neg (fun he => hfb (by rw [← he]; exact hrb))]
      · rw [if_neg (fun hc => hrb (hmk.mp hc))]
        rw [show rowF (r :: dropDupKeepLast (a2 ++ b)) f =
          if r.file = f then some r else rowF (dropDupKeepLast (a2 ++ b)) f
          from rowF_cons r _ f]
        by_cases hrf : r.file = f
        · rw [if_pos hrf]
          subst hrf
          rw [if_neg hrb, rowF_cons, if_pos rfl]
        · rw [if_neg hrf, ih ha2]
          by_cases hfb : f ∈ keys b
          · rw [if_pos hfb, if_pos hfb]
          · rw [if_neg hfb, if_neg hfb, rowF_cons, if_neg hrf]

theorem pushModifiedS3Phase_all (cfg : Cfg) (s : Sess) (hresp : cfg.resp = allResp)
    (hup : ∀ f, cfg.oracles.uploadOk f = true)
    (hndM : NodupKeys s.st.localTree) (hndR : NodupKeys s.st.versionsS3) :
    ∃ s2, pushModifiedS3Phase cfg s = .ok s2 ∧
      s2.st.localTree = s.st.localTree ∧
      s2.st.versionsLocal = s.st.versionsLocal ∧
      s2.st.deletedS3 = s.st.deletedS3 ∧
      s2.st.deletedLocal = s.st.deletedLocal ∧
      (∀ f, f ∈ keys (filterIgnore cfg.ignore s2.st.versionsS3) ↔
        f ∈ keys (computeDfs cfg s.st).2.1) ∧
      (∀ f, f ∈ (computeDfs cfg s.st).2.2.1.map (·.file) →
        rowF (filterIgnore cfg.ignore s2.st.versionsS3) f =
          rowF (computeDfs cfg s.st).1 f) ∧
      (∀ f, f ∉ (computeDfs cfg s.st).2.2.1.map (·.file) →
        rowF (filterIgnore cfg.ignore s2.st.versionsS3) f =
          rowF (computeDfs cfg s.st).2.1 f) ∧
      NodupKeys s2.st.versionsS3 := by
  have hmmF := computeDfs_mm_mem cfg s.st
  have hmn : (computeDfs cfg s.st).1 =
      filterIgnore cfg.ignore (scanDir cfg.name s.st.localTree) := computeDfs_fst cfg s.st
  have hot : (computeDfs cfg s.st).2.1 =
      filterIgnore cfg.ignore s.st.versionsS3 := computeDfs_snd cfg s.st
  rcases hdfs : computeDfs cfg s.st with ⟨mine, other, mm, mo⟩
  rw [hdfs] at hmn hot
  dsimp only at hmn hot
  have hmmF2 : ∀ f, f ∈ mm.map (·.file) ↔
      f ∈ keys mine ∧ f ∈ keys other ∧ csF mine f ≠ csF other f ∧
        timeF mine f > timeF other f := by
    intro f
    have := hmmF f
    rw [hdfs] at this
    exact this
  have hndMine : NodupKeys mine := by
    rw [hmn]
    exact nodupKeys_filter _ _ (nodupKeys_scanDir _ _ hndM)
  have hndOther : NodupKeys other := by
    rw [hot]
    exact nodupKeys_filter _ _ hndR
  rw [pushModifiedS3Phase, hdfs]
  dsimp only
  by_cases hemp : mm.isEmpty
  · rw [if_pos hemp]
    have hmnil : mm = [] := List.isEmpty_iff.mp hemp
    refine ⟨_, rfl, rfl, rfl, rfl, rfl, ?_, ?_, ?_, hndR⟩
    · intro f
      rw [show filterIgnore cfg.ignore s.st.versionsS3 = other from hot.symm]
    · intro f hf
      rw [hmnil] at hf
      exact absurd hf (by simp)
    · intro f _
      rw [show filterIgnore cfg.ignore s.st.versionsS3 = other from hot.symm]
  · rw [if_neg hemp]
    rw [pushSequence]
    rw [show cfg.resp.pushModSel = "all" by rw [hresp]; rfl, applySel_all]
    dsimp only
    rw [uploadToS3_all_ok cfg.oracles.uploadOk hup]
    dsimp only
    set updated := mine.filter (fun r => (mm.map (·.file)).contains r.file) with hupd
    have hndUpd : NodupKeys updated := nodupKeys_filter _ _ hndMine
    have hupdKeys : ∀ f, f ∈ keys updated ↔ f ∈ mm.map (·.file) := by
      intro f
      rw [hupd, keys_filter_keydet (fun x => (mm.map (·.file)).contains x) mine f]
      constructor
      · rintro ⟨h1, h2⟩
        exact strContains_iff.mp h2
      · intro h
        exact ⟨((hmmF2 f).mp h).1, strContains_iff.mpr h⟩
    have hrowUpd : ∀ f, f ∈ keys updated → rowF updated f = rowF mine f := by
      intro f hf
      rw [hupd]
      refine rowF_filter_keydet _ mine f ?_
      exact strContains_iff.mpr ((hupdKeys f).mp hf)
    have hdd := rowF_dropDupKeepLast_append other updated hndOther hndUpd
    have hFfix : filterIgnore cfg.ignore (dropDupKeepLast (other ++ updated)) =
        dropDupKeepLast (other ++ updated) := by
      refine filterIgnore_eq_self _ _ ?_
      intro r hr
      have hr2 := mem_of_mem_dropDupKeepLast hr
      rcases List.mem_append.mp hr2 with h | h
      · exact contains_eq_false_of_mem_filterIgnore (hot ▸ h)
      · have : r ∈ mine := (List.mem_filter.mp (hupd ▸ h)).1
        exact contains_eq_false_of_mem_filterIgnore (hmn ▸ this)
    refine ⟨_, rfl, rfl, rfl, rfl, rfl, ?_, ?_, ?_, ?_⟩
    · intro f
      dsimp only
      rw [hFfix, mem_keys_dropDupKeepLast, keys_append, List.mem_append]
      constructor
      · rintro (h | h)
        · exact h
        · exact ((hmmF2 f).mp ((hupdKeys f).mp h)).2.1
      · exact Or.inl
    · intro f hf
      dsimp only
      rw [hFfix, hdd f, if_pos ((hupdKeys f).mpr hf), hrowUpd f ((hupdKeys f).mpr hf)]
    · intro f hf
      dsimp only
      rw [hFfix, hdd f, if_neg (fun hc => hf ((hupdKeys f).mp hc))]
    · dsimp only
      exact nodupKeys_dropDupKeepLast _

theorem pullModifiedLocalPhase_all (cfg : Cfg) (s : Sess) (hresp : cfg.resp = allResp)
    (hdown : ∀ f, cfg.oracles.downloadOk f = true) :
    ∃ s2, pullModifiedLocalPhase cfg s = .ok s2 ∧
      s2.st.versionsS3 = s.st.versionsS3 ∧
      s2.st.versionsLocal = s.st.versionsLocal ∧
      s2.st.deletedS3 = s.st.deletedS3 ∧
      s2.st.deletedLocal = s.st.deletedLocal ∧
      (∀ f, f ∈ keys s2.st.localTree ↔ f ∈ keys s.st.localTree) ∧
      (∀ f, f ∈ (computeDfs cfg s.st).2.2.2.map (·.file) →
        csF s2.st.localTree f = csF (computeDfs cfg s.st).2.1 f) ∧
      (∀ f, f ∉ (computeDfs cfg s.st).2.2.2.map (·.file) →
        rowF s2.st.localTree f = rowF s.st.localTree f) ∧
      (NodupKeys s.st.localTree → NodupKeys s2.st.localTree) := by
  have hmoF := computeDfs_mo_mem cfg s.st
  have hmn : (computeDfs cfg s.st).1 =
      filterIgnore cfg.ignore (scanDir cfg.name s.st.localTree) := computeDfs_fst cfg s.st
  rcases hdfs : computeDfs cfg s.st with ⟨mine, other, mm, mo⟩
  rw [hdfs] at hmn
  dsimp only at hmn
  have hmoF2 : ∀ f, f ∈ mo.map (·.file) →
      f ∈ keys mine := by
    intro f hf
    have := hmoF f
    rw [hdfs] at this
    exact (this.mp hf).1
  have hmoLocal : ∀ f, f ∈ mo.map (·.file) → f ∈ keys s.st.localTree := by
    intro f hf
    have := hmoF2 f hf
    rw [hmn, mem_keys_filterIgnore, keys_scanDir] at this
    exact this.1
  rw [pullModifiedLocalPhase, hdfs]
  dsimp only
  by_cases hemp : mo.isEmpty
  · rw [if_pos hemp]
    have hmnil : mo = [] := List.isEmpty_iff.mp hemp
    refine ⟨_, rfl, rfl, rfl, rfl, rfl, fun f => Iff.rfl, ?_, fun f _ => rfl, fun h => h⟩
    intro f hf
    rw [hmnil] at hf
    exact absurd hf (by simp)
  · rw [if_neg hemp]
    rw [pullSequence]
    rw [show cfg.resp.pullModSel = "all" by rw [hresp]; rfl, applySel_all]
    dsimp only
    rw [downloadFromS3_all_ok cfg.name cfg.tNow cfg.oracles.downloadOk other hdown]
    refine ⟨_, rfl, rfl, rfl, rfl, rfl, ?_, ?_, ?_, ?_⟩
    · intro f
      dsimp only
      rw [mem_keys_applyDownloads]
      constructor
      · rintro (h | h)
        · exact h
        · exact hmoLocal f h
      · exact Or.inl
    · intro f hf
      dsimp only
      exact csF_applyDownloads_mem _ _ _ _ _ f hf
    · intro f hf
      dsimp only
      exact rowF_applyDownloads_not_mem _ _ _ _ _ f hf
    · intro h
      dsimp only
      exact nodupKeys_applyDownloads _ _ _ _ _ h

/-! ### Phase behaviour when the candidate set is empty -/

theorem pushDeletedS3Phase_empty (cfg : Cfg) (s : Sess)
    (hdl : recomputedTombstones (computeDfs cfg s.st).1 (computeDfs cfg s.st).2.1
      s.st.versionsLocal s.st.deletedLocal = []) :
    pushDeletedS3Phase cfg s = .ok ⟨{ s.st with deletedLocal := [] },
      s.trace ++ [⟨.pushDeletedS3, []⟩],
      s.writes ++ [⟨"deletedLocal.csv", csvColsNoIndex⟩], s.log⟩ := by
  rcases hdfs : computeDfs cfg s.st with ⟨mine, other, mm, mo⟩
  rw [hdfs] at hdl
  dsimp only at hdl
  rw [pushDeletedS3Phase, hdfs]
  dsimp only
  rw [hdl]
  simp only [List.isEmpty_nil]
  rw [if_pos trivial]
  rfl

theorem pullDeletedLocalPhase_empty (cfg : Cfg) (s : Sess)
    (hds : pullDeletedCandidates (computeDfs cfg s.st).1 (computeDfs cfg s.st).2.1
      s.st.deletedS3 = []) :
    pullDeletedLocalPhase cfg s =
      .ok { s with trace := s.trace ++ [⟨.pullDeletedLocal, []⟩] } := by
  rcases hdfs : computeDfs cfg s.st with ⟨mine, other, mm, mo⟩
  rw [hdfs] at hds
  dsimp only at hds
  rw [pullDeletedLocalPhase, hdfs]
  dsimp only
  rw [hds]
  simp only [List.isEmpty_nil]
  rw [if_pos trivial]
  rfl

theorem pushNewS3Phase_empty (cfg : Cfg) (s : Sess)
    (hnew : (computeDfs cfg s.st).1.filter
      (fun r => !(memKey r.file (computeDfs cfg s.st).2.1)) = []) :
    pushNewS3Phase cfg s =
      .ok { s with trace := s.trace ++ [⟨.pushNewS3, []⟩] } := by
  rcases hdfs : computeDfs cfg s.st with ⟨mine, other, mm, mo⟩
  rw [hdfs] at hnew
  dsimp only at hnew
  rw [pushNewS3Phase, hdfs]
  dsimp only
  rw [hnew]
  simp only [List.isEmpty_nil]
  rw [if_pos trivial]
  rfl

theorem pullNewLocalPhase_empty (cfg : Cfg) (s : Sess)
    (hnew : (computeDfs cfg s.st).2.1.filter
      (fun r => !(memKey r.file (computeDfs cfg s.st).1)) = []) :
    pullNewLocalPhase cfg s =
      .ok { s with trace := s.trace ++ [⟨.pullNewLocal, []⟩] } := by
  rcases hdfs : computeDfs cfg s.st with ⟨mine, other, mm, mo⟩
  rw [hdfs] at hnew
  dsimp only at hnew
  rw [pullNewLocalPhase, hdfs]
  dsimp only
  rw [hnew]
  simp only [List.isEmpty_nil]
  rw [if_pos trivial]
  rfl

theorem pushModifiedS3Phase_empty (cfg : Cfg) (s : Sess)
    (hmm : (computeDfs cfg s.st).2.2.1 = []) :
    pushModifiedS3Phase cfg s =
      .ok { s with trace := s.trace ++ [⟨.pushModifiedS3, []⟩] } := by
  rcases hdfs : computeDfs cfg s.st with ⟨mine, other, mm, mo⟩
  rw [hdfs] at hmm
  dsimp only at hmm
  rw [pushModifiedS3Phase, hdfs]
  dsimp only
  rw [hmm]
  simp only [List.isEmpty_nil]
  rw [if_pos trivial]

theorem pullModifiedLocalPhase_empty (cfg : Cfg) (s : Sess)
    (hmo : (computeDfs cfg s.st).2.2.2 = []) :
    pullModifiedLocalPhase cfg s =
      .ok { s with trace := s.trace ++ [⟨.pullModifiedLocal, []⟩] } := by
  rcases hdfs : computeDfs cfg s.st with ⟨mine, other, mm, mo⟩
  rw [hdfs] at hmo
  dsimp only at hmo
  rw [pullModifiedLocalPhase, hdfs]
  dsimp only
  rw [hmo]
  simp only [List.isEmpty_nil]
  rw [if_pos trivial]

theorem revertModifiedS3Phase_empty (cfg : Cfg) (s : Sess)
    (hmo : (computeDfs cfg s.st).2.2.2 = []) :
    revertModifiedS3Phase cfg s =
      .ok { s with trace := s.trace ++ [⟨.revertModifiedS3, []⟩] } := by
  rcases hdfs : computeDfs cfg s.st with ⟨mine, other, mm, mo⟩
  rw [hdfs] at hmo
  dsimp only at hmo
  rw [revertModifiedS3Phase, hdfs]
  dsimp only
  rw [hmo]
  simp only [List.isEmpty_nil]
  rw [if_pos trivial]

theorem revertModifiedLocalPhase_empty (cfg : Cfg) (s : Sess)
    (hmm : (computeDfs cfg s.st).2.2.1 = []) :
    revertModifiedLocalPhase cfg s =
      .ok { s with trace := s.trace ++ [⟨.revertModifiedLocal, []⟩] } := by
  rcases hdfs : computeDfs cfg s.st with ⟨mine, other, mm, mo⟩
  rw [hdfs] at hmm
  dsimp only at hmm
  rw [revertModifiedLocalPhase, hdfs]
  dsimp only
  rw [hmm]
  simp only [List.isEmpty_nil]
  rw [if_pos trivial]

/-! ### Phase trace lemmas (session order) -/

theorem pushSequence_trace (cfg : Cfg) (selResp : String) (tag : PhaseTag)
    (listfiles : List ModEntry) (mine other : Table) (s s2 : Sess)
    (h : pushSequence cfg selResp tag listfiles mine other s = .ok s2) :
    s2.trace = s.trace ++ [⟨tag, listfiles.map (·.file)⟩] := by
  rw [pushSequence] at h
  split at h
  · exact absurd h (by simp)
  · injection h with h2
    subst h2
    rfl

theorem pullSequence_trace (cfg : Cfg) (selResp : String) (tag : PhaseTag)
    (listfiles : List ModEntry) (other : Table) (s s2 : Sess)
    (h : pullSequence cfg selResp tag listfiles other s = .ok s2) :
    s2.trace = s.trace ++ [⟨tag, listfiles.map (·.file)⟩] := by
  rw [pullSequence] at h
  split at h
  · exact absurd h (by simp)
  · injection h with h2
    subst h2
    rfl

theorem pushDeletedS3Phase_trace (cfg : Cfg) (s s2 : Sess)
    (h : pushDeletedS3Phase cfg s = .ok s2) :
    ∃ c, s2.trace = s.trace ++ [⟨.pushDeletedS3, c⟩] := by
  rcases hdfs : computeDfs cfg s.st with ⟨mine, other, mm, mo⟩
  rw [pushDeletedS3Phase, hdfs] at h
  dsimp only at h
  split at h
  · injection h with h2
    subst h2
    exact ⟨_, rfl⟩
  · split at h
    · exact absurd h (by simp)
    · injection h with h2
      subst h2
      exact ⟨_, rfl⟩

theorem pullDeletedLocalPhase_trace (cfg : Cfg) (s s2 : Sess)
    (h : pullDeletedLocalPhase cfg s = .ok s2) :
    ∃ c, s2.trace = s.trace ++ [⟨.pullDeletedLocal, c⟩] := by
  rcases hdfs : computeDfs cfg s.st with ⟨mine, other, mm, mo⟩
  rw [pullDeletedLocalPhase, hdfs] at h
  dsimp only at h
  split at h
  · injection h with h2
    subst h2
    exact ⟨_, rfl⟩
  · split at h
    · exact absurd h (by simp)
    · injection h with h2
      subst h2
      exact ⟨_, rfl⟩

theorem pushNewS3Phase_trace (cfg : Cfg) (s s2 : Sess)
    (h : pushNewS3Phase cfg s = .ok s2) :
    ∃ c, s2.trace = s.trace ++ [⟨.pushNewS3, c⟩] := by
  rcases hdfs : computeDfs cfg s.st with ⟨mine, other, mm, mo⟩
  rw [pushNewS3Phase, hdfs] at h
  dsimp only at h
  split at h
  · injection h with h2
    subst h2
    exact ⟨_, rfl⟩
  · split at h
    · exact absurd h (by simp)
    · injection h with h2
      subst h2
      exact ⟨_, rfl⟩

theorem pullNewLocalPhase_trace (cfg : Cfg) (s s2 : Sess)
    (h : pullNewLocalPhase cfg s = .ok s2) :
    ∃ c, s2.trace = s.trace ++ [⟨.pullNewLocal, c⟩] := by
  rcases hdfs : computeDfs cfg s.st with ⟨mine, other, mm, mo⟩
  rw [pullNewLocalPhase, hdfs] at h
  dsimp only at h
  split at h
  · injection h with h2
    subst h2
    exact ⟨_, rfl⟩
  · split at h
    · exact absurd h (by simp)
    · injection h with h2
      subst h2
      exact ⟨_, rfl⟩

theorem pushModifiedS3Phase_trace (cfg : Cfg) (s s2 : Sess)
    (h : pushModifiedS3Phase cfg s = .ok s2) :
    ∃ c, s2.trace = s.trace ++ [⟨.pushModifiedS3, c⟩] := by
  rcases hdfs : computeDfs cfg s.st with ⟨mine, other, mm, mo⟩
  rw [pushModifiedS3Phase, hdfs] at h
  dsimp only at h
  split at h
  · injection h with h2
    subst h2
    exact ⟨_, rfl⟩
  · exact ⟨_, pushSequence_trace cfg _ _ mm mine other s s2 h⟩

theorem pullModifiedLocalPhase_trace (cfg : Cfg) (s s2 : Sess)
    (h : pullModifiedLocalPhase cfg s = .ok s2) :
    ∃ c, s2.trace = s.trace ++ [⟨.pullModifiedLocal, c⟩] := by
  rcases hdfs : computeDfs cfg s.st with ⟨mine, other, mm, mo⟩
  rw [pullModifiedLocalPhase, hdfs] at h
  dsimp only at h
  split at h
  · injection h with h2
    subst h2
    exact ⟨_, rfl⟩
  · exact ⟨_, pullSequence_trace cfg _ _ mo other s s2 h⟩

theorem revertModifiedS3Phase_trace (cfg : Cfg) (s s2 : Sess)
    (h : revertModifiedS3Phase cfg s = .ok s2) :
    ∃ c, s2.trace = s.trace ++ [⟨.revertModifiedS3, c⟩] := by
  rcases hdfs : computeDfs cfg s.st with ⟨mine, other, mm, mo⟩
  rw [revertModifiedS3Phase, hdfs] at h
  dsimp only at h
  split at h
  · injection h with h2
    subst h2
    exact ⟨_, rfl⟩
  · exact ⟨_, pushSequence_trace cfg _ _ mo mine other s s2 h⟩

theorem revertModifiedLocalPhase_trace (cfg : Cfg) (s s2 : Sess)
    (h : revertModifiedLocalPhase cfg s = .ok s2) :
    ∃ c, s2.trace = s.trace ++ [⟨.revertModifiedLocal, c⟩] := by
  rcases hdfs : computeDfs cfg s.st with ⟨mine, other, mm, mo⟩
  rw [revertModifiedLocalPhase, hdfs] at h
  dsimp only at h
  split at h
  · injection h with h2
    subst h2
    exact ⟨_, rfl⟩
  · exact ⟨_, pullSequence_trace cfg _ _ mm other s s2 h⟩

/-- C4 amended: every completed session executes exactly eight prompt
blocks, in the fixed source order PushDeletedRemote, PullDeletedLocal,
PushNewRemote, PullNewLocal, PushModifiedRemote (propagate),
PullModifiedLocal (propagate), PushModifiedRemote (revert),
PullModifiedLocal (revert) — no block skipped even when an earlier
selection was empty.  In particular PushDeletedRemote runs *before*
PullDeletedLocal, and the two revert sub-prompts run after *both*
propagate blocks, contrary to the claimed order. -/
theorem c4_phase_order (cfg : Cfg) (st : SyncState) (sess : Sess)
    (h : runSession cfg st = .ok sess) :
    sess.trace.map (·.tag) =
      [.pushDeletedS3, .pullDeletedLocal, .pushNewS3, .pullNewLocal,
       .pushModifiedS3, .pullModifiedLocal, .revertModifiedS3,
       .revertModifiedLocal] := by
  rw [runSession] at h
  rcases h1 : pushDeletedS3Phase cfg ⟨st, [], [], []⟩ with e1 | s1 <;> rw [h1] at h
  · simp [Bind.bind, Except.bind] at h
  simp only [Bind.bind, Except.bind] at h
  rcases h2 : pullDeletedLocalPhase cfg s1 with e2 | s2 <;> rw [h2] at h
  · simp at h
  dsimp only at h
  rcases h3 : pushNewS3Phase cfg s2 with e3 | s3 <;> rw [h3] at h
  · simp at h
  dsimp only at h
  rcases h4 : pullNewLocalPhase cfg s3 with e4 | s4 <;> rw [h4] at h
  · simp at h
  dsimp only at h
  rcases h5 : pushModifiedS3Phase cfg s4 with e5 | s5 <;> rw [h5] at h
  · simp at h
  dsimp only at h
  rcases h6 : pullModifiedLocalPhase cfg s5 with e6 | s6 <;> rw [h6] at h
  · simp at h
  dsimp only at h
  rcases h7 : revertModifiedS3Phase cfg s6 with e7 | s7 <;> rw [h7] at h
  · simp at h
  dsimp only at h
  rcases h8 : revertModifiedLocalPhase cfg s7 with e8 | s8 <;> rw [h8] at h
  · simp at h
  dsimp only at h
  have hsess : sess = sessionEnd cfg s8 := by
    simpa [pure, Except.pure] using h.symm
  obtain ⟨c1, ht1⟩ := pushDeletedS3Phase_trace cfg _ s1 h1
  obtain ⟨c2, ht2⟩ := pullDeletedLocalPhase_trace cfg s1 s2 h2
  obtain ⟨c3, ht3⟩ := pushNewS3Phase_trace cfg s2 s3 h3
  obtain ⟨c4, ht4⟩ := pullNewLocalPhase_trace cfg s3 s4 h4
  obtain ⟨c5, ht5⟩ := pushModifiedS3Phase_trace cfg s4 s5 h5
  obtain ⟨c6, ht6⟩ := pullModifiedLocalPhase_trace cfg s5 s6 h6
  obtain ⟨c7, ht7⟩ := revertModifiedS3Phase_trace cfg s6 s7 h7
  obtain ⟨c8, ht8⟩ := revertModifiedLocalPhase_trace cfg s7 s8 h8
  have hend : (sessionEnd cfg s8).trace = s8.trace := rfl
  rw [hsess, hend, ht8, ht7, ht6, ht5, ht4, ht3, ht2, ht1]
  simp

/-! ### Concrete fixtures used by witnesses and counterexamples -/

/-- A concrete configuration: no ignore list, user `"u"`, download mtime 9,
every prompt `"all"`, every transfer succeeding. -/
def cfgW : Cfg := ⟨[], "u", 9, allResp, allOkOracles⟩

/-- A concrete initial state: the local tree is empty while the previous
snapshot and the remote manifest still list `p` — a locally deleted file. -/
def stW : SyncState := ⟨[], [⟨"p", "e", 5, 1⟩], [⟨"p", "u", 4, 1⟩], [], []⟩

/-- `stW` wrapped as a session start. -/
def sessW : Sess := ⟨stW, [], [], []⟩

/-- The tag sequence of the phases a session ran (`[]` when aborted). -/
def runTrace (cfg : Cfg) (st : SyncState) : List PhaseTag :=
  match runSession cfg st with
  | .ok s => s.trace.map (·.tag)
  | .error _ => []

/-- C4 counterexample: at the concrete state `stW` the session's phase
order starts with the PushDeletedRemote block and runs PullDeletedLocal
second, and the revert sub-prompts run after both propagate blocks — not
the claimed order (PullDeletedLocal first, each revert sub-prompt paired
with its propagate phase). -/
theorem c4_counterexample :
    runTrace cfgW stW =
      [.pushDeletedS3, .pullDeletedLocal, .pushNewS3, .pullNewLocal,
       .pushModifiedS3, .pullModifiedLocal, .revertModifiedS3,
       .revertModifiedLocal] ∧
    runTrace cfgW stW ≠
      [.pullDeletedLocal, .pushDeletedS3, .pushNewS3, .pullNewLocal,
       .pushModifiedS3, .revertModifiedS3, .pullModifiedLocal,
       .revertModifiedLocal] ∧
    (runTrace cfgW stW).indexOf PhaseTag.pushDeletedS3 <
      (runTrace cfgW stW).indexOf PhaseTag.pullDeletedLocal := by
  exact ⟨rfl, by decide, by decide⟩

/-- The completed session on `stW` under `cfgW`. -/
def c4sessW : Sess :=
  ⟨⟨[⟨"p", "u", 9, 1⟩], [⟨"p", "e", 5, 1⟩], [⟨"p", "u", 9, 1⟩], [], [⟨"p", "e", 5, 1⟩]⟩,
   [⟨.pushDeletedS3, ["p"]⟩, ⟨.pullDeletedLocal, []⟩, ⟨.pushNewS3, []⟩,
    ⟨.pullNewLocal, ["p"]⟩, ⟨.pushModifiedS3, []⟩, ⟨.pullModifiedLocal, []⟩,
    ⟨.revertModifiedS3, []⟩, ⟨.revertModifiedLocal, []⟩],
   [⟨"deletedLocal.csv", csvColsNoIndex⟩, ⟨"deletedS3.csv", csvColsIndex⟩,
    ⟨"versions.csv", csvColsNoIndex⟩, ⟨"versionsLocal.csv", csvColsNoIndex⟩],
   []⟩

/-- Witness for amended C4 at the concrete state `stW`. -/
theorem c4_phase_order_witness :
    runSession cfgW stW = .ok c4sessW ∧
    c4sessW.trace.map (·.tag) =
      [.pushDeletedS3, .pullDeletedLocal, .pushNewS3, .pullNewLocal,
       .pushModifiedS3, .pullModifiedLocal, .revertModifiedS3,
       .revertModifiedLocal] :=
  ⟨rfl, c4_phase_order cfgW stW c4sessW rfl⟩

/-- The result of `_push_deleted_s3` on `sessW` under `cfgW`. -/
def c3resW : Sess :=
  ⟨⟨[], [⟨"p", "e", 5, 1⟩], [⟨"p", "u", 4, 1⟩], [], [⟨"p", "e", 5, 1⟩]⟩,
   [⟨.pushDeletedS3, ["p"]⟩],
   [⟨"deletedLocal.csv", csvColsNoIndex⟩, ⟨"deletedS3.csv", csvColsIndex⟩,
    ⟨"versions.csv", csvColsNoIndex⟩],
   []⟩

/-- C3: whenever `_push_deleted_s3` completes, the persisted local
tombstone table holds exactly the paths of
`((LocalSnapshot ∪ previous LocalTombstones) − current manifest) ∩ remote
manifest` — a full recomputation, not an append — and the table is
written (`deletedLocal.csv`) for *every* prompt answer, including an
empty selection (the statement quantifies over the whole configuration,
hence over every selection). -/
theorem c3_tombstone_recompute (cfg : Cfg) (s s2 : Sess) (f : String)
    (h : pushDeletedS3Phase cfg s = .ok s2) :
    (f ∈ keys s2.st.deletedLocal ↔
      ((f ∈ keys s.st.versionsLocal ∨ f ∈ keys s.st.deletedLocal) ∧
        f ∉ keys (computeDfs cfg s.st).1 ∧ f ∈ keys (computeDfs cfg s.st).2.1)) ∧
    ⟨"deletedLocal.csv", csvColsNoIndex⟩ ∈ s2.writes := by
  obtain ⟨hdl, hw⟩ := pushDeletedS3Phase_deletedLocal cfg s s2 h
  exact ⟨by rw [hdl, keys_recomputedTombstones], hw⟩

/-- Witness for C3 at a concrete input: the locally deleted file `p` is
recorded in the recomputed tombstone table even though the selection is
never confirmed with `y`. -/
theorem c3_tombstone_recompute_witness :
    pushDeletedS3Phase cfgW sessW = .ok c3resW ∧
    (("p" ∈ keys c3resW.st.deletedLocal ↔
      (("p" ∈ keys sessW.st.versionsLocal ∨ "p" ∈ keys sessW.st.deletedLocal) ∧
        "p" ∉ keys (computeDfs cfgW sessW.st).1 ∧
        "p" ∈ keys (computeDfs cfgW sessW.st).2.1)) ∧
      ⟨"deletedLocal.csv", csvColsNoIndex⟩ ∈ c3resW.writes) :=
  ⟨rfl, c3_tombstone_recompute cfgW sessW c3resW "p" rfl⟩

/-- A state where `p` is present locally, recorded as archived remotely
(`deletedS3.csv`), *and* still listed in the remote manifest. -/
def c5st : SyncState :=
  ⟨[⟨"p", "u", 5, 1⟩], [⟨"p", "e", 5, 1⟩], [], [⟨"p", "e", 5, 1⟩], []⟩

/-- C5 counterexample: at `c5st` the path `p` is in `M ∩ Tr` (present
locally and archived remotely), yet `_pull_deleted_local` does not offer
it, because the code additionally excludes every path still listed in
the remote manifest — the candidate set is not `M ∩ Tr`. -/
theorem c5_counterexample :
    "p" ∈ keys (computeDfs cfgW c5st).1 ∧ "p" ∈ keys c5st.deletedS3 ∧
    "p" ∉ keys (pullDeletedCandidates (computeDfs cfgW c5st).1
      (computeDfs cfgW c5st).2.1 c5st.deletedS3) := by
  refine ⟨?_, ?_, ?_⟩ <;> decide

/-- C5 amended: the `_pull_deleted_local` candidate set is exactly
`(M ∩ Tr) − R`: the paths present locally, recorded as archived
remotely, and *no longer listed in the remote manifest*. -/
theorem c5_pull_deleted_candidates (mine other ds : Table) (f : String) :
    f ∈ keys (pullDeletedCandidates mine other ds) ↔
      f ∈ keys ds ∧ f ∈ keys mine ∧ f ∉ keys other := by
  rw [pullDeletedCandidates]
  rw [keys_filter_keydet (fun g => !(memKey g other)) _ f]
  rw [keys_filter_keydet (fun g => memKey g mine) _ f]
  rw [Bool.not_eq_true', memKey_eq_false_iff]
  constructor
  · rintro ⟨⟨h1, h2⟩, h3⟩
    exact ⟨h1, memKey_iff.mp h2, h3⟩
  · rintro ⟨h1, h2, h3⟩
    exact ⟨⟨h1, memKey_iff.mpr h2⟩, h3⟩

theorem deleteFromS3Go_succ_mem (st : String → Bool × Bool × Bool)
    (files : List String) (f : String) :
    f ∈ (deleteFromS3Go st files).1 ↔
      f ∈ files ∧ (st f).1 = true ∧ (st f).2.1 = true ∧ (st f).2.2 = true := by
  induction files with
  | nil => simp [deleteFromS3Go]
  | cons g rest ih =>
      rw [deleteFromS3Go]
      rcases hgo : deleteFromS3Go st rest with ⟨succ, lg⟩
      rw [hgo] at ih
      dsimp only [softDeleteSteps] at *
      rcases hst : st g with ⟨d, rest2⟩
      rcases hrest2 : rest2 with ⟨dl, ru⟩
      dsimp only
      by_cases hall : (d && (dl && ru)) = true
      · rw [if_pos hall]
        simp only [List.mem_cons]
        rw [ih]
        obtain ⟨hd, hdl, hru⟩ : d = true ∧ dl = true ∧ ru = true := by
          simpa [Bool.and_eq_true] using hall
        constructor
        · rintro (rfl | ⟨h1, h2⟩)
          · exact ⟨Or.inl rfl, by rw [hst, hrest2]; exact ⟨hd, hdl, hru⟩⟩
          · exact ⟨Or.inr h1, h2⟩
        · rintro ⟨h1, h2⟩
          rcases h1 with rfl | h1
          · exact Or.inl rfl
          · exact Or.inr ⟨h1, h2⟩
      · rw [if_neg hall]
        show f ∈ succ ↔ _
        rw [ih]
        constructor
        · rintro ⟨h1, h2⟩
          exact ⟨List.mem_cons_of_mem _ h1, h2⟩
        · rintro ⟨h1, h2⟩
          rcases List.mem_cons.mp h1 with he | h1
          · exfalso
            rw [he, hst, hrest2] at h2
            obtain ⟨hd, hdl, hru⟩ := h2
            dsimp only at hd hdl hru
            exact hall (by rw [hd, hdl, hru]; rfl)
          · exact ⟨h1, h2⟩

theorem deleteFromS3Go_log_mem (st : String → Bool × Bool × Bool)
    (files : List String) (f : String) :
    (LogEvent.deleteS3Error f (st f).1 ((st f).1 && (st f).2.1)
        ((st f).1 && ((st f).2.1 && (st f).2.2)) ∈ (deleteFromS3Go st files).2) ↔
      f ∈ files ∧ ¬((st f).1 = true ∧ (st f).2.1 = true ∧ (st f).2.2 = true) := by
  induction files with
  | nil => simp [deleteFromS3Go]
  | cons g rest ih =>
      rw [deleteFromS3Go]
      rcases hgo : deleteFromS3Go st rest with ⟨succ, lg⟩
      rw [hgo] at ih
      dsimp only [softDeleteSteps] at *
      rcases hst : st g with ⟨d, rest2⟩
      rcases hrest2 : rest2 with ⟨dl, ru⟩
      dsimp only
      by_cases hall : (d && (dl && ru)) = true
      · rw [if_pos hall]
        show _ ∈ lg ↔ _
        rw [ih]
        obtain ⟨hd, hdl, hru⟩ : d = true ∧ dl = true ∧ ru = true := by
          simpa [Bool.and_eq_true] using hall
        constructor
        · rintro ⟨h1, h2⟩
          exact ⟨List.mem_cons_of_mem _ h1, h2⟩
        · rintro ⟨h1, h2⟩
          rcases List.mem_cons.mp h1 with he | h1
          · exfalso
            rw [he, hst, hrest2] at h2
            exact h2 ⟨hd, hdl, hru⟩
          · exact ⟨h1, h2⟩
      · rw [if_neg hall]
        simp only [List.mem_cons]
        rw [ih]
        constructor
        · rintro (he | ⟨h1, h2⟩)
          · obtain ⟨he1, he2, he3, he4⟩ := LogEvent.deleteS3Error.inj he
            refine ⟨Or.inl he1, ?_⟩
            rintro ⟨hd, hdl, hru⟩
            apply hall
            rw [he1, hst, hrest2] at hd hdl hru
            dsimp only at hd hdl hru
            rw [hd, hdl, hru]
            rfl
          · exact ⟨Or.inr h1, h2⟩
        · rintro ⟨h1, h2⟩
          rcases h1 with rfl | h1
          · left
            rw [hst, hrest2]
          · exact Or.inr ⟨h1, h2⟩

theorem rowF_removeSucceeded (other : Table) (succ : List String) (f : String)
    (h : f ∉ succ) : rowF (removeSucceeded other succ) f = rowF other f := by
  rw [removeSucceeded]
  refine rowF_filter_keydet (fun g => !(succ.contains g)) other f ?_
  show (!(succ.contains f)) = true
  rw [contains_eq_false_of_not_mem h]
  rfl

theorem keys_removeSucceeded (other : Table) (succ : List String) (f : String) :
    f ∈ keys (removeSucceeded other succ) ↔ f ∈ keys other ∧ f ∉ succ := by
  rw [removeSucceeded]
  rw [keys_filter_keydet (fun g => !(succ.contains g)) other f]
  constructor
  · rintro ⟨h1, h2⟩
    rw [Bool.not_eq_true'] at h2
    refine ⟨h1, fun hm => ?_⟩
    have he := List.elem_eq_true_of_mem hm
    rw [show succ.elem f = succ.contains f from rfl, h2] at he
    exact Bool.false_ne_true he
  · rintro ⟨h1, h2⟩
    refine ⟨h1, ?_⟩
    show (!(succ.contains f)) = true
    rw [contains_eq_false_of_not_mem h2]
    rfl

/-- C6: in the soft delete of `_delete_from_s3` the three sub-steps run in
the order download-to-staging, remote delete, archive re-upload; a path is
reported successful — and is then the exact set of paths removed from the
in-memory remote manifest in `_push_deleted_s3` — iff the `Y/N` prompt was
answered yes and all three sub-steps succeeded; a failing path instead
gets an error-log entry whose completion flags record precisely the
sub-steps that had completed (deleted only if downloaded, re-uploaded
only if deleted), and its manifest row is left unchanged. -/
theorem c6_soft_delete (yn : String) (st : String → Bool × Bool × Bool)
    (files : List String) (other : Table) (f : String) :
    (f ∈ (deleteFromS3 yn st files).1 ↔
      (pyLower yn = "y" ∨ pyLower yn = "yes") ∧ f ∈ files ∧
        (st f).1 = true ∧ (st f).2.1 = true ∧ (st f).2.2 = true) ∧
    (f ∈ keys (removeSucceeded other (deleteFromS3 yn st files).1) ↔
      f ∈ keys other ∧ f ∉ (deleteFromS3 yn st files).1) ∧
    (f ∈ (deleteFromS3 yn st files).1 ∨
      rowF (removeSucceeded other (deleteFromS3 yn st files).1) f = rowF other f) ∧
    (LogEvent.deleteS3Error f (st f).1 ((st f).1 && (st f).2.1)
        ((st f).1 && ((st f).2.1 && (st f).2.2)) ∈ (deleteFromS3 yn st files).2 ↔
      (pyLower yn = "y" ∨ pyLower yn = "yes") ∧ f ∈ files ∧
        ¬((st f).1 = true ∧ (st f).2.1 = true ∧ (st f).2.2 = true)) := by
  rw [deleteFromS3]
  by_cases hyn : pyLower yn = "y" ∨ pyLower yn = "yes"
  · rw [if_pos hyn]
    refine ⟨?_, ?_, ?_, ?_⟩
    · rw [deleteFromS3Go_succ_mem]
      tauto
    · exact keys_removeSucceeded other _ f
    · by_cases hf : f ∈ (deleteFromS3Go st files).1
      · exact Or.inl hf
      · exact Or.inr (rowF_removeSucceeded _ _ _ hf)
    · rw [deleteFromS3Go_log_mem]
      tauto
  · rw [if_neg hyn]
    refine ⟨by simp [hyn], ?_, ?_, by simp [hyn]⟩
    · rw [keys_removeSucceeded]
    · exact Or.inr (rowF_removeSucceeded other [] f (List.not_mem_nil f))

/-- A walked directory holding a readable file `a` and an unreadable
file `b`. -/
def c7fs : List FsFile := [⟨"a", 1, some 7⟩, ⟨"b", 2, none⟩]

/-- C7 counterexample: on a directory with a readable `a` and an
unreadable `b`, `_compute_directory` does not skip `b` and produce the
manifest of the remaining readable files, as the claim states — having
no `try/except` around `_hash`, it propagates the `IOError` and the
whole scan aborts. -/
theorem c7_counterexample :
    computeDirectoryFS "u" c7fs = .error () ∧
    computeDirectoryFS "u" c7fs ≠ .ok (specScanSkipping "u" c7fs) := by
  refine ⟨rfl, fun h => ?_⟩
  rw [show computeDirectoryFS "u" c7fs = .error () from rfl] at h
  exact Except.noConfusion h

/-- C7 amended: whenever the walked directory contains an unreadable
file outside the `.S3` metadata subtree, `_compute_directory` raises
`IOError` out of the entire scan (no manifest is produced and the error
reaches the session). -/
theorem c7_scan_aborts (name : String) (fs : List FsFile)
    (h : ∃ f ∈ fs, containsS3 f.path = false ∧ f.content = none) :
    computeDirectoryFS name fs = .error () := by
  induction fs with
  | nil =>
      obtain ⟨f, hf, _⟩ := h
      exact absurd hf (List.not_mem_nil f)
  | cons g rest ih =>
      obtain ⟨f, hf, hns3, hcont⟩ := h
      rw [computeDirectoryFS]
      by_cases hs3 : containsS3 g.path = true
      · rw [if_pos hs3]
        apply ih
        rcases List.mem_cons.mp hf with rfl | hf2
        · rw [hns3] at hs3
          exact absurd hs3 (by simp)
        · exact ⟨f, hf2, hns3, hcont⟩
      · rw [if_neg hs3]
        rcases hgc : g.content with _ | c
        · rfl
        · have hfr : f ∈ rest := by
            rcases List.mem_cons.mp hf with rfl | hf2
            · rw [hgc] at hcont
              exact absurd hcont (by simp)
            · exact hf2
          rw [ih ⟨f, hfr, hns3, hcont⟩]

/-- Witness for the amended C7 at the concrete directory `c7fs`. -/
theorem c7_scan_aborts_witness :
    (∃ f ∈ c7fs, containsS3 f.path = false ∧ f.content = none) ∧
    computeDirectoryFS "u" c7fs = .error () :=
  ⟨⟨⟨"b", 2, none⟩, by decide, by decide, rfl⟩,
   c7_scan_aborts "u" c7fs ⟨⟨"b", 2, none⟩, by decide, by decide, rfl⟩⟩

/-- C10: for every platform string not among the supported platforms,
`smart_sync` and `reset_all` construct the default base connection —
whose `establish_connection`, `synchronize`, `reset_local` and
`reset_remote` are no-ops (and whose `reset_confirm` is falsy) — so both
calls complete normally and leave the world (local tree and every remote
store) untouched. -/
theorem c10_unsupported_noop (W : Type) (platform : String) (s3 : Connection W) (w : W)
    (h : platform ∉ supportedPlatforms) :
    dispatchConnection W platform s3 = baseConnection W ∧
    smartSync W platform s3 w = w ∧ resetAll W platform s3 w = w := by
  have hd : dispatchConnection W platform s3 = baseConnection W := by
    rw [dispatchConnection, if_neg]
    intro hc
    exact h (List.mem_of_elem_eq_true hc)
  refine ⟨hd, ?_, ?_⟩
  · rw [smartSync, hd]
    rfl
  · rw [resetAll, hd]
    rfl

/-- Witness for C10: an unsupported platform string (`"Azure"`) over a
`Nat` world. -/
theorem c10_unsupported_noop_witness :
    "Azure" ∉ supportedPlatforms ∧
    (dispatchConnection Nat "Azure" (baseConnection Nat) = baseConnection Nat ∧
      smartSync Nat "Azure" (baseConnection Nat) 42 = 42 ∧
      resetAll Nat "Azure" (baseConnection Nat) 42 = 42) :=
  ⟨by decide,
   c10_unsupported_noop Nat "Azure" (baseConnection Nat) 42 (by decide)⟩

/-- The ledger writes a session performed (`[]` when the session
aborted). -/
def runWrites (cfg : Cfg) (st : SyncState) : List WriteEvent :=
  match runSession cfg st with
  | .ok s => s.writes
  | .error _ => []

/-- C8 (code bug): in a session whose push-deleted phase runs (state
`stW`), every ledger write uses `to_csv(..., index=False)` and has the
four columns — except the remote tombstone rewrite
`deleteds3.to_csv(self._s3delpath)` (s3conn.py line 848), which omits
`index=False` and therefore persists `deletedS3.csv` with the unnamed
pandas index column prepended: five columns, not four. -/
theorem c8_tombstone_write_columns :
    runWrites cfgW stW =
      [⟨"deletedLocal.csv", csvColsNoIndex⟩, ⟨"deletedS3.csv", csvColsIndex⟩,
       ⟨"versions.csv", csvColsNoIndex⟩, ⟨"versionsLocal.csv", csvColsNoIndex⟩] ∧
    csvColsIndex ≠ csvColsNoIndex ∧
    csvColsIndex.length = 5 ∧ csvColsNoIndex.length = 4 := by
  refine ⟨rfl, ?_, rfl, rfl⟩
  decide

/-- C2: for every current manifest `mine` and remote manifest `other` (as
`_compute_dfs` returns them), the modified-file classification partitions
the paths present in both whose checksums differ into the two disjoint
lists `mod_mine` (exactly those whose local timestamp is strictly greater
than the remote one) and `mod_other` (all the others, so ties go to
`mod_other`); every such path is in exactly one of the two and none is in
both. -/
theorem c2_modified_partition (cfg : Cfg) (st : SyncState) (f : String) :
    ¬(f ∈ (computeDfs cfg st).2.2.1.map (·.file) ∧
        f ∈ (computeDfs cfg st).2.2.2.map (·.file)) ∧
    ((f ∈ (computeDfs cfg st).2.2.1.map (·.file) ∨
        f ∈ (computeDfs cfg st).2.2.2.map (·.file)) ↔
      f ∈ keys (computeDfs cfg st).1 ∧ f ∈ keys (computeDfs cfg st).2.1 ∧
        csF (computeDfs cfg st).1 f ≠ csF (computeDfs cfg st).2.1 f) ∧
    (f ∈ (computeDfs cfg st).2.2.1.map (·.file) ↔
      f ∈ keys (computeDfs cfg st).1 ∧ f ∈ keys (computeDfs cfg st).2.1 ∧
        csF (computeDfs cfg st).1 f ≠ csF (computeDfs cfg st).2.1 f ∧
        timeF (computeDfs cfg st).1 f > timeF (computeDfs cfg st).2.1 f) ∧
    (f ∈ (computeDfs cfg st).2.2.2.map (·.file) ↔
      f ∈ keys (computeDfs cfg st).1 ∧ f ∈ keys (computeDfs cfg st).2.1 ∧
        csF (computeDfs cfg st).1 f ≠ csF (computeDfs cfg st).2.1 f ∧
        ¬(timeF (computeDfs cfg st).1 f > timeF (computeDfs cfg st).2.1 f)) := by
  refine ⟨?_, ?_, computeDfs_mm_mem cfg st f, computeDfs_mo_mem cfg st f⟩
  · rintro ⟨hmm, hmo⟩
    obtain ⟨_, _, _, ht⟩ := (computeDfs_mm_mem cfg st f).mp hmm
    obtain ⟨_, _, _, hnt⟩ := (computeDfs_mo_mem cfg st f).mp hmo
    exact hnt ht
  · constructor
    · rintro (hmm | hmo)
      · obtain ⟨h1, h2, h3, _⟩ := (computeDfs_mm_mem cfg st f).mp hmm
        exact ⟨h1, h2, h3⟩
      · obtain ⟨h1, h2, h3, _⟩ := (computeDfs_mo_mem cfg st f).mp hmo
        exact ⟨h1, h2, h3⟩
    · rintro ⟨h1, h2, h3⟩
      by_cases ht : timeF (computeDfs cfg st).1 f > timeF (computeDfs cfg st).2.1 f
      · exact Or.inl ((computeDfs_mm_mem cfg st f).mpr ⟨h1, h2, h3, ht⟩)
      · exact Or.inr ((computeDfs_mo_mem cfg st f).mpr ⟨h1, h2, h3, ht⟩)

theorem modSplit_eq_nil (files : List String) (ib m o : Table)
    (h : ∀ f ∈ files, csF ib f = csF o f) :
    modSplit files ib m o = ([], []) := by
  induction files with
  | nil => rfl
  | cons g rest ih =>
      rw [modSplit, ih (fun f hf => h f (List.mem_cons_of_mem _ hf))]
      dsimp only
      rw [if_neg (fun hne => hne (h g (List.mem_cons_self g rest)))]

/-! ### Idempotence: a fully-confirmed session leaves a synchronized
state, and a session started from a synchronized state offers nothing -/

/-- The synchronized-state invariant: the (filtered) fresh local scan and
the (filtered) remote manifest list exactly the same paths, with equal
checksums on every common path. -/
def Synced (cfg : Cfg) (st : SyncState) : Prop :=
  (∀ f, f ∈ keys (computeDfs cfg st).1 ↔ f ∈ keys (computeDfs cfg st).2.1) ∧
  (∀ f, f ∈ keys (computeDfs cfg st).1 → f ∈ keys (computeDfs cfg st).2.1 →
    csF (computeDfs cfg st).1 f = csF (computeDfs cfg st).2.1 f)

/-- The state a session started from a synchronized state ends in: only
the tombstone recomputation (empty) and the closing snapshot write touch
the ledgers. -/
def syncedEndState (cfg : Cfg) (st : SyncState) : SyncState :=
  { st with versionsLocal := scanDir cfg.name st.localTree, deletedLocal := [] }

theorem computeDfs_congr (cfg : Cfg) (st1 st2 : SyncState)
    (hL : st1.localTree = st2.localTree)
    (hV : filterIgnore cfg.ignore st1.versionsS3 =
      filterIgnore cfg.ignore st2.versionsS3) :
    computeDfs cfg st1 = computeDfs cfg st2 := by
  rw [computeDfs, computeDfs, hL, hV]

theorem recomputedTombstones_nil (mine other vl dl : Table)
    (h : ∀ f, f ∈ keys other → f ∈ keys mine) :
    recomputedTombstones mine other vl dl = [] := by
  cases hr : recomputedTombstones mine other vl dl with
  | nil => rfl
  | cons r rest =>
      have hmem : r.file ∈ keys (recomputedTombstones mine other vl dl) := by
        rw [hr, keys, List.map_cons]
        exact List.mem_cons_self _ _
      obtain ⟨_, hnm, ho⟩ :=
        (keys_recomputedTombstones mine other vl dl r.file).mp hmem
      exact absurd (h _ ho) hnm

theorem pullDeletedCandidates_nil (mine other ds : Table)
    (h : ∀ f, f ∈ keys mine → f ∈ keys other) :
    pullDeletedCandidates mine other ds = [] := by
  rw [pullDeletedCandidates]
  refine List.filter_eq_nil_iff.mpr ?_
  intro r hr hcontra
  rw [Bool.not_eq_true'] at hcontra
  have h1 : memKey r.file mine = true := (List.mem_filter.mp hr).2
  exact (memKey_eq_false_iff.mp hcontra) (h _ (memKey_iff.mp h1))

theorem filter_not_memKey_nil (a b : Table)
    (h : ∀ f, f ∈ keys a → f ∈ keys b) :
    a.filter (fun r => !(memKey r.file b)) = [] := by
  refine List.filter_eq_nil_iff.mpr ?_
  intro r hr hcontra
  rw [Bool.not_eq_true'] at hcontra
  exact (memKey_eq_false_iff.mp hcontra) (h _ (mem_keys_iff.mpr ⟨r, hr, rfl⟩))

theorem computeDfs_mm_nil (cfg : Cfg) (st : SyncState)
    (h : ∀ f, f ∈ keys (computeDfs cfg st).1 → f ∈ keys (computeDfs cfg st).2.1 →
      csF (computeDfs cfg st).1 f = csF (computeDfs cfg st).2.1 f) :
    (computeDfs cfg st).2.2.1 = [] := by
  cases hmm : (computeDfs cfg st).2.2.1 with
  | nil => rfl
  | cons e rest =>
      have hmem : e.file ∈ (computeDfs cfg st).2.2.1.map (·.file) := by
        rw [hmm, List.map_cons]
        exact List.mem_cons_self _ _
      obtain ⟨h1, h2, h3, _⟩ := (computeDfs_mm_mem cfg st e.file).mp hmem
      exact absurd (h _ h1 h2) h3

theorem computeDfs_mo_nil (cfg : Cfg) (st : SyncState)
    (h : ∀ f, f ∈ keys (computeDfs cfg st).1 → f ∈ keys (computeDfs cfg st).2.1 →
      csF (computeDfs cfg st).1 f = csF (computeDfs cfg st).2.1 f) :
    (computeDfs cfg st).2.2.2 = [] := by
  cases hmo : (computeDfs cfg st).2.2.2 with
  | nil => rfl
  | cons e rest =>
      have hmem : e.file ∈ (computeDfs cfg st).2.2.2.map (·.file) := by
        rw [hmo, List.map_cons]
        exact List.mem_cons_self _ _
      obtain ⟨h1, h2, h3, _⟩ := (computeDfs_mo_mem cfg st e.file).mp hmem
      exact absurd (h _ h1 h2) h3

theorem runSession_synced (cfg : Cfg) (st : SyncState) (h : Synced cfg st) :
    runSession cfg st = .ok ⟨syncedEndState cfg st,
      [⟨.pushDeletedS3, []⟩, ⟨.pullDeletedLocal, []⟩, ⟨.pushNewS3, []⟩,
       ⟨.pullNewLocal, []⟩, ⟨.pushModifiedS3, []⟩, ⟨.pullModifiedLocal, []⟩,
       ⟨.revertModifiedS3, []⟩, ⟨.revertModifiedLocal, []⟩],
      [⟨"deletedLocal.csv", csvColsNoIndex⟩, ⟨"versionsLocal.csv", csvColsNoIndex⟩],
      []⟩ := by
  obtain ⟨hkeys, hcs⟩ := h
  have hsubMO : ∀ f, f ∈ keys (computeDfs cfg st).1 → f ∈ keys (computeDfs cfg st).2.1 :=
    fun f hf => (hkeys f).mp hf
  have hsubOM : ∀ f, f ∈ keys (computeDfs cfg st).2.1 → f ∈ keys (computeDfs cfg st).1 :=
    fun f hf => (hkeys f).mpr hf
  have e1 : pushDeletedS3Phase cfg ⟨st, [], [], []⟩ =
      .ok ⟨{ st with deletedLocal := [] }, [⟨.pushDeletedS3, []⟩],
        [⟨"deletedLocal.csv", csvColsNoIndex⟩], []⟩ :=
    pushDeletedS3Phase_empty cfg ⟨st, [], [], []⟩
      (recomputedTombstones_nil (computeDfs cfg st).1 (computeDfs cfg st).2.1
        st.versionsLocal st.deletedLocal hsubOM)
  have e2 : pullDeletedLocalPhase cfg
      ⟨{ st with deletedLocal := [] }, [⟨.pushDeletedS3, []⟩],
        [⟨"deletedLocal.csv", csvColsNoIndex⟩], []⟩ =
      .ok ⟨{ st with deletedLocal := [] },
        [⟨.pushDeletedS3, []⟩, ⟨.pullDeletedLocal, []⟩],
        [⟨"deletedLocal.csv", csvColsNoIndex⟩], []⟩ :=
    pullDeletedLocalPhase_empty cfg _
      (pullDeletedCandidates_nil (computeDfs cfg st).1 (computeDfs cfg st).2.1
        st.deletedS3 hsubMO)
  have e3 : pushNewS3Phase cfg
      ⟨{ st with deletedLocal := [] },
        [⟨.pushDeletedS3, []⟩, ⟨.pullDeletedLocal, []⟩],
        [⟨"deletedLocal.csv", csvColsNoIndex⟩], []⟩ =
      .ok ⟨{ st with deletedLocal := [] },
        [⟨.pushDeletedS3, []⟩, ⟨.pullDeletedLocal, []⟩, ⟨.pushNewS3, []⟩],
        [⟨"deletedLocal.csv", csvColsNoIndex⟩], []⟩ :=
    pushNewS3Phase_empty cfg _
      (filter_not_memKey_nil (computeDfs cfg st).1 (computeDfs cfg st).2.1 hsubMO)
  have e4 : pullNewLocalPhase cfg
      ⟨{ st with deletedLocal := [] },
        [⟨.pushDeletedS3, []⟩, ⟨.pullDeletedLocal, []⟩, ⟨.pushNewS3, []⟩],
        [⟨"deletedLocal.csv", csvColsNoIndex⟩], []⟩ =
      .ok ⟨{ st with deletedLocal := [] },
        [⟨.pushDeletedS3, []⟩, ⟨.pullDeletedLocal, []⟩, ⟨.pushNewS3, []⟩,
         ⟨.pullNewLocal, []⟩],
        [⟨"deletedLocal.csv", csvColsNoIndex⟩], []⟩ :=
    pullNewLocalPhase_empty cfg _
      (filter_not_memKey_nil (computeDfs cfg st).2.1 (computeDfs cfg st).1 hsubOM)
  have e5 : pushModifiedS3Phase cfg
      ⟨{ st with deletedLocal := [] },
        [⟨.pushDeletedS3, []⟩, ⟨.pullDeletedLocal, []⟩, ⟨.pushNewS3, []⟩,
         ⟨.pullNewLocal, []⟩],
        [⟨"deletedLocal.csv", csvColsNoIndex⟩], []⟩ =
      .ok ⟨{ st with deletedLocal := [] },
        [⟨.pushDeletedS3, []⟩, ⟨.pullDeletedLocal, []⟩, ⟨.pushNewS3, []⟩,
         ⟨.pullNewLocal, []⟩, ⟨.pushModifiedS3, []⟩],
        [⟨"deletedLocal.csv", csvColsNoIndex⟩], []⟩ :=
    pushModifiedS3Phase_empty cfg _ (computeDfs_mm_nil cfg st hcs)
  have e6 : pullModifiedLocalPhase cfg
      ⟨{ st with deletedLocal := [] },
        [⟨.pushDeletedS3, []⟩, ⟨.pullDeletedLocal, []⟩, ⟨.pushNewS3, []⟩,
         ⟨.pullNewLocal, []⟩, ⟨.pushModifiedS3, []⟩],
        [⟨"deletedLocal.csv", csvColsNoIndex⟩], []⟩ =
      .ok ⟨{ st with deletedLocal := [] },
        [⟨.pushDeletedS3, []⟩, ⟨.pullDeletedLocal, []⟩, ⟨.pushNewS3, []⟩,
         ⟨.pullNewLocal, []⟩, ⟨.pushModifiedS3, []⟩, ⟨.pullModifiedLocal, []⟩],
        [⟨"deletedLocal.csv", csvColsNoIndex⟩], []⟩ :=
    pullModifiedLocalPhase_empty cfg _ (computeDfs_mo_nil cfg st hcs)
  have e7 : revertModifiedS3Phase cfg
      ⟨{ st with deletedLocal := [] },
        [⟨.pushDeletedS3, []⟩, ⟨.pullDeletedLocal, []⟩, ⟨.pushNewS3, []⟩,
         ⟨.pullNewLocal, []⟩, ⟨.pushModifiedS3, []⟩, ⟨.pullModifiedLocal, []⟩],
        [⟨"deletedLocal.csv", csvColsNoIndex⟩], []⟩ =
      .ok ⟨{ st with deletedLocal := [] },
        [⟨.pushDeletedS3, []⟩, ⟨.pullDeletedLocal, []⟩, ⟨.pushNewS3, []⟩,
         ⟨.pullNewLocal, []⟩, ⟨.pushModifiedS3, []⟩, ⟨.pullModifiedLocal, []⟩,
         ⟨.revertModifiedS3, []⟩],
        [⟨"deletedLocal.csv", csvColsNoIndex⟩], []⟩ :=
    revertModifiedS3Phase_empty cfg _ (computeDfs_mo_nil cfg st hcs)
  have e8 : revertModifiedLocalPhase cfg
      ⟨{ st with deletedLocal := [] },
        [⟨.pushDeletedS3, []⟩, ⟨.pullDeletedLocal, []⟩, ⟨.pushNewS3, []⟩,
         ⟨.pullNewLocal, []⟩, ⟨.pushModifiedS3, []⟩, ⟨.pullModifiedLocal, []⟩,
         ⟨.revertModifiedS3, []⟩],
        [⟨"deletedLocal.csv", csvColsNoIndex⟩], []⟩ =
      .ok ⟨{ st with deletedLocal := [] },
        [⟨.pushDeletedS3, []⟩, ⟨.pullDeletedLocal, []⟩, ⟨.pushNewS3, []⟩,
         ⟨.pullNewLocal, []⟩, ⟨.pushModifiedS3, []⟩, ⟨.pullModifiedLocal, []⟩,
         ⟨.revertModifiedS3, []⟩, ⟨.revertModifiedLocal, []⟩],
        [⟨"deletedLocal.csv", csvColsNoIndex⟩], []⟩ :=
    revertModifiedLocalPhase_empty cfg _ (computeDfs_mm_nil cfg st hcs)
  rw [runSession]
  rw [e1]
  simp only [Bind.bind, Except.bind]
  rw [e2]
  dsimp only
  rw [e3]
  dsimp only
  rw [e4]
  dsimp only
  rw [e5]
  dsimp only
  rw [e6]
  dsimp only
  rw [e7]
  dsimp only
  rw [e8]
  dsimp only
  rfl

theorem runSession_establishes_synced (cfg : Cfg) (st : SyncState)
    (hresp : cfg.resp = allResp)
    (hup : ∀ f, cfg.oracles.uploadOk f = true)
    (hdown : ∀ f, cfg.oracles.downloadOk f = true)
    (hndM : NodupKeys st.localTree) (hndR : NodupKeys st.versionsS3) :
    ∃ s9, runSession cfg st = .ok s9 ∧ Synced cfg s9.st := by
  obtain ⟨s1, h1, e1L, e1VL, e1DS, e1DL, e1F, e1N⟩ :=
    pushDeletedS3Phase_all cfg ⟨st, [], [], []⟩ hresp
  dsimp only at e1L e1VL e1DS e1F
  have hnd1R : NodupKeys s1.st.versionsS3 := e1N hndR
  obtain ⟨s2, h2, e2⟩ := pullDeletedLocalPhase_all cfg s1 hresp
  have e2L : s2.st.localTree = st.localTree := by rw [e2, e1L]
  have hnd2M : NodupKeys s2.st.localTree := by rw [e2L]; exact hndM
  have hnd2R : NodupKeys s2.st.versionsS3 := by rw [e2]; exact hnd1R
  have hc2 : computeDfs cfg s2.st = computeDfs cfg st := by
    refine computeDfs_congr cfg s2.st st e2L ?_
    rw [e2]
    exact e1F
  obtain ⟨s3, h3, e3L, e3VL, e3DS, e3DL, k3, r3a, r3b, n3⟩ :=
    pushNewS3Phase_all cfg s2 hresp hup
  rw [hc2] at k3
  have n3R : NodupKeys s3.st.versionsS3 := n3 hnd2M hnd2R
  have e3Lst : s3.st.localTree = st.localTree := by rw [e3L, e2L]
  obtain ⟨s4, h4, e4V, e4VL, e4DS, e4DL, k4, _, _, n4⟩ :=
    pullNewLocalPhase_all cfg s3 hresp hdown
  have n4M : NodupKeys s4.st.localTree := n4 (by rw [e3Lst]; exact hndM)
  have n4R : NodupKeys s4.st.versionsS3 := by rw [e4V]; exact n3R
  have hm3 : (computeDfs cfg s3.st).1 = (computeDfs cfg st).1 := by
    rw [computeDfs_fst, computeDfs_fst, e3Lst]
  have ho3 : (computeDfs cfg s3.st).2.1 = filterIgnore cfg.ignore s3.st.versionsS3 :=
    computeDfs_snd cfg s3.st
  rw [hm3, ho3, e3L, e2L] at k4
  have ho4 : (computeDfs cfg s4.st).2.1 = filterIgnore cfg.ignore s3.st.versionsS3 := by
    rw [computeDfs_snd, e4V]
  have hINV1s4 : ∀ f, f ∈ keys (computeDfs cfg s4.st).1 ↔
      f ∈ keys (computeDfs cfg s4.st).2.1 := by
    intro f
    rw [mem_keys_mine, ho4]
    constructor
    · rintro ⟨hloc, hpass⟩
      rcases (k4 f).mp hloc with hst | ⟨ho, _⟩
      · exact (k3 f).mpr (Or.inr ((mem_keys_mine cfg st f).mpr ⟨hst, hpass⟩))
      · exact ho
    · intro ho
      have hpass : cfg.ignore.contains f = false :=
        ((mem_keys_filterIgnore _ _ f).mp ho).2
      refine ⟨?_, hpass⟩
      by_cases hm : f ∈ keys (computeDfs cfg st).1
      · exact (k4 f).mpr (Or.inl ((mem_keys_mine cfg st f).mp hm).1)
      · exact (k4 f).mpr (Or.inr ⟨ho, hm⟩)
  obtain ⟨s5, h5, e5L, e5VL, e5DS, e5DL, k5, r5a, r5b, n5R⟩ :=
    pushModifiedS3Phase_all cfg s4 hresp hup n4M n4R
  have hm5 : (computeDfs cfg s5.st).1 = (computeDfs cfg s4.st).1 := by
    rw [computeDfs_fst, computeDfs_fst, e5L]
  have ho5 : (computeDfs cfg s5.st).2.1 = filterIgnore cfg.ignore s5.st.versionsS3 :=
    computeDfs_snd cfg s5.st
  obtain ⟨s6, h6, e6V, e6VL, e6DS, e6DL, k6, c6a, r6b, n6⟩ :=
    pullModifiedLocalPhase_all cfg s5 hresp hdown
  have ho6 : (computeDfs cfg s6.st).2.1 = filterIgnore cfg.ignore s5.st.versionsS3 := by
    rw [computeDfs_snd, e6V]
  have hkeys6 : ∀ f, f ∈ keys (computeDfs cfg s6.st).1 ↔
      f ∈ keys (computeDfs cfg s6.st).2.1 := by
    intro f
    rw [mem_keys_mine, ho6, k5 f]
    constructor
    · rintro ⟨hloc, hpass⟩
      refine (hINV1s4 f).mp ?_
      rw [mem_keys_mine]
      refine ⟨?_, hpass⟩
      have hl5 := (k6 f).mp hloc
      rwa [e5L] at hl5
    · intro ho
      have hm4 := (hINV1s4 f).mpr ho
      rw [mem_keys_mine] at hm4
      obtain ⟨hloc4, hpass⟩ := hm4
      refine ⟨?_, hpass⟩
      refine (k6 f).mpr ?_
      rw [e5L]
      exact hloc4
  have hcs6 : ∀ f, f ∈ keys (computeDfs cfg s6.st).1 →
      f ∈ keys (computeDfs cfg s6.st).2.1 →
      csF (computeDfs cfg s6.st).1 f = csF (computeDfs cfg s6.st).2.1 f := by
    intro f hf6m hf6o
    have hpass : cfg.ignore.contains f = false :=
      ((mem_keys_mine cfg s6.st f).mp hf6m).2
    have hloc6 : f ∈ keys s6.st.localTree := ((mem_keys_mine cfg s6.st f).mp hf6m).1
    have hloc4 : f ∈ keys s4.st.localTree := by
      have hl5 := (k6 f).mp hloc6
      rwa [e5L] at hl5
    have hf4m : f ∈ keys (computeDfs cfg s4.st).1 :=
      (mem_keys_mine cfg s4.st f).mpr ⟨hloc4, hpass⟩
    have hf4o : f ∈ keys (computeDfs cfg s4.st).2.1 := (hINV1s4 f).mp hf4m
    have hf5m : f ∈ keys (computeDfs cfg s5.st).1 := by rw [hm5]; exact hf4m
    have hf5o : f ∈ keys (computeDfs cfg s5.st).2.1 := by
      rw [ho5]
      exact (k5 f).mpr hf4o
    rw [csF_mine cfg s6.st f hpass, ho6]
    by_cases hcs4 : csF (computeDfs cfg s4.st).1 f = csF (computeDfs cfg s4.st).2.1 f
    · have hnotmm4 : f ∉ (computeDfs cfg s4.st).2.2.1.map (·.file) := by
        intro hc
        exact ((computeDfs_mm_mem cfg s4.st f).mp hc).2.2.1 hcs4
      have hother5 : rowF (filterIgnore cfg.ignore s5.st.versionsS3) f =
          rowF (computeDfs cfg s4.st).2.1 f := r5b f hnotmm4
      have hcs5 : csF (computeDfs cfg s5.st).1 f = csF (computeDfs cfg s5.st).2.1 f := by
        rw [hm5, ho5, csF_congr hother5]
        exact hcs4
      have hnotmo5 : f ∉ (computeDfs cfg s5.st).2.2.2.map (·.file) := by
        intro hc
        exact ((computeDfs_mo_mem cfg s5.st f).mp hc).2.2.1 hcs5
      have htree6 : rowF s6.st.localTree f = rowF s5.st.localTree f := r6b f hnotmo5
      rw [csF_congr htree6, e5L, ← csF_mine cfg s4.st f hpass, csF_congr hother5]
      exact hcs4
    · by_cases ht4 : timeF (computeDfs cfg s4.st).1 f > timeF (computeDfs cfg s4.st).2.1 f
      · have hmm4 : f ∈ (computeDfs cfg s4.st).2.2.1.map (·.file) :=
          (computeDfs_mm_mem cfg s4.st f).mpr ⟨hf4m, hf4o, hcs4, ht4⟩
        have hother5 : rowF (filterIgnore cfg.ignore s5.st.versionsS3) f =
            rowF (computeDfs cfg s4.st).1 f := r5a f hmm4
        have hcs5 : csF (computeDfs cfg s5.st).1 f = csF (computeDfs cfg s5.st).2.1 f := by
          rw [hm5, ho5, csF_congr hother5]
        have hnotmo5 : f ∉ (computeDfs cfg s5.st).2.2.2.map (·.file) := by
          intro hc
          exact ((computeDfs_mo_mem cfg s5.st f).mp hc).2.2.1 hcs5
        have htree6 : rowF s6.st.localTree f = rowF s5.st.localTree f := r6b f hnotmo5
        rw [csF_congr htree6, e5L, ← csF_mine cfg s4.st f hpass, csF_congr hother5]
      · have hnotmm4 : f ∉ (computeDfs cfg s4.st).2.2.1.map (·.file) := by
          intro hc
          exact ht4 ((computeDfs_mm_mem cfg s4.st f).mp hc).2.2.2
        have hother5 : rowF (filterIgnore cfg.ignore s5.st.versionsS3) f =
            rowF (computeDfs cfg s4.st).2.1 f := r5b f hnotmm4
        have hmo5 : f ∈ (computeDfs cfg s5.st).2.2.2.map (·.file) := by
          refine (computeDfs_mo_mem cfg s5.st f).mpr ⟨hf5m, hf5o, ?_, ?_⟩
          · rw [hm5, ho5, csF_congr hother5]
            exact hcs4
          · rw [hm5, ho5, timeF_congr hother5]
            exact ht4
        have hc6 := c6a f hmo5
        rw [hc6, ho5]
  have hmo6 : (computeDfs cfg s6.st).2.2.2 = [] := computeDfs_mo_nil cfg s6.st hcs6
  have hmm6 : (computeDfs cfg s6.st).2.2.1 = [] := computeDfs_mm_nil cfg s6.st hcs6
  have h7 := revertModifiedS3Phase_empty cfg s6 hmo6
  have h8 := revertModifiedLocalPhase_empty cfg
    { s6 with trace := s6.trace ++ [⟨.revertModifiedS3, []⟩] } hmm6
  have hrun : runSession cfg st = .ok (sessionEnd cfg
      ⟨s6.st, (s6.trace ++ [⟨.revertModifiedS3, []⟩]) ++ [⟨.revertModifiedLocal, []⟩],
        s6.writes, s6.log⟩) := by
    rw [runSession]
    rw [h1]
    simp only [Bind.bind, Except.bind]
    rw [h2]
    dsimp only
    rw [h3]
    dsimp only
    rw [h4]
    dsimp only
    rw [h5]
    dsimp only
    rw [h6]
    dsimp only
    rw [h7]
    dsimp only
    rw [h8]
    dsimp only
    rfl
  exact ⟨_, hrun, ⟨hkeys6, hcs6⟩⟩

/-- **C1**: with every prompt answered `"all"` and every transfer
succeeding, running a full synchronization session twice in succession
(no filesystem or remote changes in between: the second run starts from
exactly the state the first one left) yields empty candidate sets in
every one of the eight prompt blocks of the second session, for every
initial state whose local tree and remote manifest are path-unique. -/
theorem c1_idempotence (cfg : Cfg) (st : SyncState)
    (hresp : cfg.resp = allResp)
    (hup : ∀ f, cfg.oracles.uploadOk f = true)
    (hdown : ∀ f, cfg.oracles.downloadOk f = true)
    (hndM : NodupKeys st.localTree) (hndR : NodupKeys st.versionsS3) :
    ∃ s1 s2, runSession cfg st = .ok s1 ∧ runSession cfg s1.st = .ok s2 ∧
      s2.trace.map (·.tag) =
        [.pushDeletedS3, .pullDeletedLocal, .pushNewS3, .pullNewLocal,
         .pushModifiedS3, .pullModifiedLocal, .revertModifiedS3,
         .revertModifiedLocal] ∧
      ∀ ev ∈ s2.trace, ev.candidates = [] := by
  obtain ⟨s1, h1, hsync⟩ :=
    runSession_establishes_synced cfg st hresp hup hdown hndM hndR
  refine ⟨s1, _, h1, runSession_synced cfg s1.st hsync, rfl, ?_⟩
  intro ev hev
  fin_cases hev <;> rfl

/-- Witness for C1 at the concrete configuration `cfgW` (all prompts
`"all"`, all transfers succeed) and the concrete state `stW`. -/
theorem c1_idempotence_witness :
    cfgW.resp = allResp ∧ (∀ f, cfgW.oracles.uploadOk f = true) ∧
    (∀ f, cfgW.oracles.downloadOk f = true) ∧
    NodupKeys stW.localTree ∧ NodupKeys stW.versionsS3 ∧
    (∃ s1 s2, runSession cfgW stW = .ok s1 ∧ runSession cfgW s1.st = .ok s2 ∧
      s2.trace.map (·.tag) =
        [.pushDeletedS3, .pullDeletedLocal, .pushNewS3, .pullNewLocal,
         .pushModifiedS3, .pullModifiedLocal, .revertModifiedS3,
         .revertModifiedLocal] ∧
      ∀ ev ∈ s2.trace, ev.candidates = []) :=
  ⟨rfl, fun _ => rfl, fun _ => rfl, by unfold NodupKeys; decide,
   by unfold NodupKeys; decide,
   c1_idempotence cfgW stW rfl (fun _ => rfl) (fun _ => rfl)
     (by unfold NodupKeys; decide) (by unfold NodupKeys; decide)⟩


end S3Sync
